import Mathlib

/-!
Shallow embedding of the ryanq/chip8 CHIP-8 interpreter (Rust) in Lean 4.

Machine integers are modelled as Nat with explicit `% 256` (u8) and the
bounds that Rust's types and panics impose; fallible operations (index
panics, usize underflow, a potentially diverging wait loop) return Option,
with `none` standing for a panic or divergence.  Registers, memory and the
framebuffer are modelled as functions from Nat, updated pointwise.
-/

namespace Chip8Model

/-- Pointwise update of a function, modelling an array or Vec write. -/
def upd {α : Type} (f : Nat → α) (a : Nat) (v : α) : Nat → α :=
  fun b => if b = a then v else f b

theorem upd_same {α : Type} (f : Nat → α) (a : Nat) (v : α) : upd f a v a = v := by
  simp [upd]

theorem upd_ne {α : Type} (f : Nat → α) (a : Nat) (v : α) {b : Nat} (h : b ≠ a) :
    upd f a v b = f b := by
  simp [upd, h]

/-- Model of the quark BitIndex bits(lo..hi) extraction used by the decoder. -/
def bits (w lo hi : Nat) : Nat := w / 2 ^ lo % 2 ^ (hi - lo)

theorem bits_12_16 (hi lo : Nat) (h1 : hi < 256) (h2 : lo < 256) :
    bits (hi * 256 + lo) 12 16 = hi / 16 := by
  show (hi * 256 + lo) / 2 ^ 12 % 2 ^ 4 = hi / 16
  norm_num
  omega

theorem bits_8_12 (hi lo : Nat) (h1 : hi < 256) (h2 : lo < 256) :
    bits (hi * 256 + lo) 8 12 = hi % 16 := by
  show (hi * 256 + lo) / 2 ^ 8 % 2 ^ 4 = hi % 16
  norm_num
  omega

theorem bits_4_8 (hi lo : Nat) (h1 : hi < 256) (h2 : lo < 256) :
    bits (hi * 256 + lo) 4 8 = lo / 16 := by
  show (hi * 256 + lo) / 2 ^ 4 % 2 ^ 4 = lo / 16
  norm_num
  omega

theorem bits_0_4 (hi lo : Nat) (h1 : hi < 256) (h2 : lo < 256) :
    bits (hi * 256 + lo) 0 4 = lo % 16 := by
  show (hi * 256 + lo) / 2 ^ 0 % 2 ^ 4 = lo % 16
  norm_num
  omega

theorem bits_0_12 (hi lo : Nat) (h1 : hi < 256) (h2 : lo < 256) :
    bits (hi * 256 + lo) 0 12 = hi % 16 * 256 + lo := by
  show (hi * 256 + lo) / 2 ^ 0 % 2 ^ 12 = hi % 16 * 256 + lo
  norm_num
  omega

theorem bits_0_8 (hi lo : Nat) (h1 : hi < 256) (h2 : lo < 256) :
    bits (hi * 256 + lo) 0 8 = lo := by
  show (hi * 256 + lo) / 2 ^ 0 % 2 ^ 8 = lo
  norm_num
  omega

/-! ## Keypad model (src/input.rs) -/

/-- Logical keypad events fed by the host event pump; the SDL keycode to
keypad value mapping of handle_input is applied before these events. -/
inductive InputEvent : Type where
  | quitEv : InputEvent
  | down : Nat → InputEvent
  | up : Nat → InputEvent

/-- Model of the Input struct: 16 key slots, the last-pressed latch and
the quit flag (the SDL event pump itself is external). -/
structure Input : Type where
  key_status : Nat → Bool
  last_key : Option Nat
  quit : Bool

/-- Model of Input::new. -/
def Input.new : Input :=
  { key_status := fun _ => false, last_key := none, quit := false }

/-- Model of Input::key_down: sets the slot and records the latch.  The
bound check mirrors the [bool; 16] index panic. -/
def key_down (s : Input) (k : Nat) : Option Input :=
  if k < 16 then
    some { s with key_status := upd s.key_status k true, last_key := some k }
  else none

/-- Model of Input::key_up: clears the slot, leaves the latch alone. -/
def key_up (s : Input) (k : Nat) : Option Input :=
  if k < 16 then
    some { s with key_status := upd s.key_status k false }
  else none

/-- Dispatch of one pumped event inside Input::handle_input. -/
def handleEvent (s : Input) (e : InputEvent) : Option Input :=
  match e with
  | .quitEv => some { s with quit := true }
  | .down k => key_down s k
  | .up k => key_up s k

/-- Model of Input::handle_input over one batch of pending events. -/
def handle_input (s : Input) : List InputEvent → Option Input
  | [] => some s
  | e :: rest =>
    match handleEvent s e with
    | some s1 => handle_input s1 rest
    | none => none

/-- Polling loop body of Input::wait_for_input: the loop exits once the
latch is set; each iteration pumps one batch of events.  Running out of
batches models the loop never terminating. -/
def waitLoop : List (List InputEvent) → Input → Option (Nat × Input)
  | [], s =>
    match s.last_key with
    | some k => some (k, s)
    | none => none
  | b :: rest, s =>
    match s.last_key with
    | some k => some (k, s)
    | none =>
      match handle_input s b with
      | some s1 => waitLoop rest s1
      | none => none

/-- Model of Input::wait_for_input: clears the latch then polls. -/
def wait_for_input (batches : List (List InputEvent)) (s : Input) :
    Option (Nat × Input) :=
  waitLoop batches { s with last_key := none }

/-- Modelled from the spec: the is_pressed query named by §4.3 reads key
slot k; its body is not among the source files (chip8.rs calls it on the
Input collaborator). -/
def is_key_pressed (s : Input) (k : Nat) : Bool :=
  s.key_status k

/-! ## Framebuffer model (src/display.rs) -/

/-- Model of the Display struct: dimensions, the backing pixel buffer
(length w * h in the source), and the dirty flag. -/
structure Disp : Type where
  w : Nat
  h : Nat
  pixels : Nat → Nat
  dirty : Bool

/-- Model of Display::new for given dimensions: zero pixels, dirty set. -/
def Disp.new (w h : Nat) : Disp :=
  { w := w, h := h, pixels := fun _ => 0, dirty := true }

/-- Model of Display::clear_screen. -/
def clear_screen (d : Disp) : Disp :=
  { d with pixels := fun _ => 0, dirty := true }

/-- Bit reversal of one u8, modelling u8::reverse_bits. -/
def reverseBits8 (b : Nat) : Nat :=
  128 * (b % 2) + 64 * (b / 2 % 2) + 32 * (b / 4 % 2) + 16 * (b / 8 % 2) +
    8 * (b / 16 % 2) + 4 * (b / 32 % 2) + 2 * (b / 64 % 2) + b / 128 % 2

/-- Inner dx loop of Display::draw_sprite: cnt counts the remaining of the
8 sprite-row bits, pos is the pixel index (y + dy) * w + (x + dx), byte is
the already-reversed row shifted right once per iteration.  sz is the
backing buffer length; an index at or beyond it models the Vec index
panic, a pixel value other than 0 or 1 models unreachable_unchecked. -/
def drawRow (sz : Nat) : Nat → Nat → Nat → (Nat → Nat) → Bool →
    Option ((Nat → Nat) × Bool)
  | _, _, 0, pix, tog => some (pix, tog)
  | byte, pos, cnt + 1, pix, tog =>
    if byte % 2 = 1 then
      if pos < sz then
        match pix pos with
        | 0 => drawRow sz (byte / 2) (pos + 1) cnt (upd pix pos 1) tog
        | 1 => drawRow sz (byte / 2) (pos + 1) cnt (upd pix pos 0) true
        | _ => none
      else none
    else drawRow sz (byte / 2) (pos + 1) cnt pix tog

/-- Outer dy loop of Display::draw_sprite over the sprite rows. -/
def drawLoop (sz w x y : Nat) : List Nat → Nat → (Nat → Nat) → Bool →
    Option ((Nat → Nat) × Bool)
  | [], _, pix, tog => some (pix, tog)
  | b :: rest, dy, pix, tog =>
    match drawRow sz (reverseBits8 b) ((y + dy) * w + x) 8 pix tog with
    | some (pix1, tog1) => drawLoop sz w x y rest (dy + 1) pix1 tog1
    | none => none

/-- Model of Display::draw_sprite: XORs the sprite onto the grid at
(x, y), returns the updated display and the toggled-off flag. -/
def draw_sprite (d : Disp) (sprite : List Nat) (x y : Nat) :
    Option (Disp × Bool) :=
  match drawLoop (d.w * d.h) d.w x y sprite 0 d.pixels false with
  | some (pix, tog) => some ({ d with pixels := pix, dirty := true }, tog)
  | none => none

/-! ## Interpreter state (src/chip8.rs) -/

def PROGRAM_START : Nat := 0x200
def STACK_START : Nat := PROGRAM_START - 32

/-- Model of the Chip8 struct of chip8.rs (the SDL handles live in the
Disp and Input submodels; cycles is driven by the run loop, not step). -/
structure Chip8 : Type where
  v : Nat → Nat
  i : Nat
  pc : Nat
  sp : Nat
  atimer : Nat
  dt : Nat
  memory : Nat → Nat
  disp : Disp
  inp : Input
  halted : Bool

/-- Oracle for the two external effects inside one step: the random byte
of Cxkk and the event batches pumped while Fx0A polls. -/
structure Oracle : Type where
  randByte : Nat
  batches : List (List InputEvent)

/-- Fx55 store loop: writes v j, v (j+1), ... to memory at i, i+1, ...,
cnt registers in all; a write at or beyond 4096 models the Vec panic. -/
def storeLoop (v : Nat → Nat) : Nat → Nat → (Nat → Nat) → Nat →
    Option ((Nat → Nat) × Nat)
  | _, 0, mem, idx => some (mem, idx)
  | j, cnt + 1, mem, idx =>
    if idx < 4096 then storeLoop v (j + 1) cnt (upd mem idx (v j)) (idx + 1)
    else none

/-- Fx65 load loop: reads memory at i, i+1, ... into v j, v (j+1), .... -/
def loadLoop (mem : Nat → Nat) : Nat → Nat → (Nat → Nat) → Nat →
    Option ((Nat → Nat) × Nat)
  | _, 0, v, idx => some (v, idx)
  | j, cnt + 1, v, idx =>
    if idx < 4096 then loadLoop mem (j + 1) cnt (upd v j (mem idx)) (idx + 1)
    else none

/-- Model of Chip8::step.  The Rust match arms become an if chain tested
in the same order; none models a panic (out-of-range index, usize
underflow) or a diverging Fx0A wait. -/
def step (o : Oracle) (s : Chip8) : Option Chip8 :=
  if s.halted then some s else
  if s.pc + 1 < 4096 then
    let w := s.memory s.pc * 256 + s.memory (s.pc + 1)
    let n3 := bits w 12 16
    let n2 := bits w 8 12
    let n1 := bits w 4 8
    let n0 := bits w 0 4
    if n3 = 0 ∧ n2 = 0 ∧ n1 = 0xe ∧ n0 = 0 then
      some { s with pc := s.pc + 2, disp := clear_screen s.disp }
    else if n3 = 0 ∧ n2 = 0 ∧ n1 = 0xe ∧ n0 = 0xe then
      if s.sp + 1 < 4096 then
        if 2 ≤ s.sp then
          some { s with pc := s.memory s.sp * 256 + s.memory (s.sp + 1),
                        sp := s.sp - 2 }
        else none
      else none
    else if n3 = 0 then
      some { s with pc := s.pc + 2, halted := true }
    else if n3 = 1 then
      some { s with pc := bits w 0 12 }
    else if n3 = 2 then
      if s.sp + 3 < 4096 then
        some { s with sp := s.sp + 2,
                      memory := upd (upd s.memory (s.sp + 2) ((s.pc + 2) / 256))
                                    (s.sp + 3) ((s.pc + 2) % 256),
                      pc := bits w 0 12 }
      else none
    else if n3 = 3 then
      some { s with pc := if s.v n2 = bits w 0 8 then s.pc + 4 else s.pc + 2 }
    else if n3 = 4 then
      some { s with pc := if s.v n2 ≠ bits w 0 8 then s.pc + 4 else s.pc + 2 }
    else if n3 = 5 ∧ n0 = 0 then
      some { s with pc := if s.v n2 = s.v n1 then s.pc + 4 else s.pc + 2 }
    else if n3 = 6 then
      some { s with pc := s.pc + 2, v := upd s.v n2 (bits w 0 8) }
    else if n3 = 7 then
      some { s with pc := s.pc + 2,
                    v := upd s.v n2 ((s.v n2 + bits w 0 8) % 256) }
    else if n3 = 8 ∧ n0 = 0 then
      some { s with pc := s.pc + 2, v := upd s.v n2 (s.v n1) }
    else if n3 = 8 ∧ n0 = 1 then
      some { s with pc := s.pc + 2, v := upd s.v n2 (s.v n2 ||| s.v n1) }
    else if n3 = 8 ∧ n0 = 2 then
      some { s with pc := s.pc + 2, v := upd s.v n2 (s.v n2 &&& s.v n1) }
    else if n3 = 8 ∧ n0 = 3 then
      some { s with pc := s.pc + 2, v := upd s.v n2 (s.v n2 ^^^ s.v n1) }
    else if n3 = 8 ∧ n0 = 4 then
      some { s with pc := s.pc + 2,
                    v := upd (upd s.v n2 ((s.v n2 + s.v n1) % 256)) 15
                             (if 256 ≤ s.v n2 + s.v n1 then 1 else 0) }
    else if n3 = 8 ∧ n0 = 5 then
      some { s with pc := s.pc + 2,
                    v := upd (upd s.v n2 ((s.v n2 % 256 + 256 - s.v n1 % 256) % 256)) 15
                             (if s.v n1 ≤ s.v n2 then 1 else 0) }
    else if n3 = 8 ∧ n0 = 6 then
      some { s with pc := s.pc + 2,
                    v := upd (upd s.v 15 (s.v n2 &&& 1)) n2
                             (upd s.v 15 (s.v n2 &&& 1) n2 / 2) }
    else if n3 = 8 ∧ n0 = 7 then
      some { s with pc := s.pc + 2,
                    v := upd (upd s.v n2 ((s.v n1 % 256 + 256 - s.v n2 % 256) % 256)) 15
                             (if s.v n2 ≤ s.v n1 then 1 else 0) }
    else if n3 = 8 ∧ n0 = 0xe then
      some { s with pc := s.pc + 2,
                    v := upd (upd s.v 15 (s.v n2 &&& 0x80)) n2
                             (upd s.v 15 (s.v n2 &&& 0x80) n2 * 2 % 256) }
    else if n3 = 9 ∧ n0 = 0 then
      some { s with pc := if s.v n2 ≠ s.v n1 then s.pc + 4 else s.pc + 2 }
    else if n3 = 0xa then
      some { s with pc := s.pc + 2, i := bits w 0 12 }
    else if n3 = 0xb then
      some { s with pc := s.v 0 + bits w 0 12 }
    else if n3 = 0xc then
      some { s with pc := s.pc + 2,
                    v := upd s.v n2 (o.randByte % 256 &&& bits w 0 8) }
    else if n3 = 0xd then
      if s.i + n0 ≤ 4096 then
        match draw_sprite s.disp ((List.range n0).map fun k => s.memory (s.i + k))
                (s.v n2) (s.v n1) with
        | some (d1, tog) =>
          some { s with pc := s.pc + 2, disp := d1,
                        v := upd s.v 15 (if tog then 1 else 0) }
        | none => none
      else none
    else if n3 = 0xe ∧ n1 = 9 ∧ n0 = 0xe then
      some { s with pc := if is_key_pressed s.inp (s.v n2) then s.pc + 4
                          else s.pc + 2 }
    else if n3 = 0xe ∧ n1 = 0xa ∧ n0 = 1 then
      some { s with pc := if ¬ is_key_pressed s.inp (s.v n2) then s.pc + 4
                          else s.pc + 2 }
    else if n3 = 0xf ∧ n1 = 0 ∧ n0 = 7 then
      some { s with pc := s.pc + 2, v := upd s.v n2 s.dt }
    else if n3 = 0xf ∧ n1 = 0 ∧ n0 = 0xa then
      match wait_for_input o.batches s.inp with
      | some (k, inp1) =>
        some { s with pc := s.pc + 2, inp := inp1, v := upd s.v n2 k }
      | none => none
    else if n3 = 0xf ∧ n1 = 1 ∧ n0 = 5 then
      some { s with pc := s.pc + 2, dt := s.v n2 }
    else if n3 = 0xf ∧ n1 = 1 ∧ n0 = 8 then
      some { s with pc := s.pc + 2, atimer := s.v n2 }
    else if n3 = 0xf ∧ n1 = 1 ∧ n0 = 0xe then
      some { s with pc := s.pc + 2, i := s.i + s.v n2 }
    else if n3 = 0xf ∧ n1 = 2 ∧ n0 = 9 then
      some { s with pc := s.pc + 2, i := 0 + s.v n2 * 5 }
    else if n3 = 0xf ∧ n1 = 3 ∧ n0 = 3 then
      if s.i + 2 < 4096 then
        some { s with pc := s.pc + 2,
                      memory := upd (upd (upd s.memory s.i (s.v n2 / 10 / 10))
                                         (s.i + 1) (s.v n2 / 10 % 10))
                                    (s.i + 2) (s.v n2 % 10) }
      else none
    else if n3 = 0xf ∧ n1 = 5 ∧ n0 = 5 then
      match storeLoop s.v 0 (n2 + 1) s.memory s.i with
      | some (m, i1) => some { s with pc := s.pc + 2, memory := m, i := i1 }
      | none => none
    else if n3 = 0xf ∧ n1 = 6 ∧ n0 = 5 then
      match loadLoop s.memory 0 (n2 + 1) s.v s.i with
      | some (v1, i1) => some { s with pc := s.pc + 2, v := v1, i := i1 }
      | none => none
    else
      some { s with pc := s.pc + 2, halted := true }
  else none

/-- Iterated step. -/
def stepN (o : Oracle) : Nat → Chip8 → Option Chip8
  | 0, s => some s
  | n + 1, s =>
    match step o s with
    | some s1 => stepN o n s1
    | none => none

/-- Font table of chip8.rs (FONT_DATA), 16 glyphs of 5 bytes. -/
def fontData : List Nat :=
  [0xf0, 0x90, 0x90, 0x90, 0xf0,
   0x20, 0x60, 0x20, 0x20, 0x70,
   0xf0, 0x10, 0xf0, 0x80, 0xf0,
   0xf0, 0x10, 0xf0, 0x10, 0xf0,
   0x90, 0x90, 0xf0, 0x10, 0x10,
   0xf0, 0x80, 0xf0, 0x10, 0xf0,
   0xf0, 0x80, 0xf0, 0x90, 0xf0,
   0xf0, 0x10, 0x20, 0x40, 0x40,
   0xf0, 0x90, 0xf0, 0x90, 0xf0,
   0xf0, 0x90, 0xf0, 0x10, 0xf0,
   0xf0, 0x90, 0xf0, 0x90, 0x90,
   0xe0, 0x90, 0xe0, 0x90, 0xe0,
   0xf0, 0x80, 0x80, 0x80, 0xf0,
   0xe0, 0x90, 0x90, 0x90, 0xe0,
   0xf0, 0x80, 0xf0, 0x80, 0xf0,
   0xf0, 0x80, 0xf0, 0x80, 0x80]

/-- Memory contents produced by Chip8::new: font at 0, program at 0x200,
zero elsewhere (the Vec holds 0x1000 bytes). -/
def initMem (rom : List Nat) : Nat → Nat :=
  fun a =>
    if a < 4096 then
      if a < 80 then fontData.getD a 0
      else if PROGRAM_START ≤ a ∧ a < PROGRAM_START + rom.length then
        rom.getD (a - PROGRAM_START) 0
      else 0
    else 0

/-- Model of Chip8::new of chip8.rs: copies the program with
copy_from_slice, which panics (none) when the ROM does not fit in
memory[0x200..]. -/
def Chip8.new (rom : List Nat) : Option Chip8 :=
  if rom.length ≤ 4096 - PROGRAM_START then
    some { v := fun _ => 0, i := 0, pc := PROGRAM_START, sp := STACK_START,
           atimer := 0, dt := 0, memory := initMem rom,
           disp := Disp.new 64 32, inp := Input.new, halted := false }
  else none

/-- Model of Chip8::load_at of main.rs on Vec-as-List memory: truncate to
start, then extend with the source chained with zeros, capped at
0x1000 - start bytes. -/
def load_at (mem : List Nat) (start : Nat) (source : List Nat) : List Nat :=
  mem.take start ++
    (source.take (0x1000 - start) ++
      List.replicate (0x1000 - start - source.length) 0)

end Chip8Model

namespace Chip8Model

/-! ## Shared concrete inputs used to instantiate theorems -/

/-- Oracle with a zero random byte and no pending input batches. -/
def oracle0 : Oracle := { randByte := 0, batches := [] }

/-- Test ROM: ld i, fff; ld v0, 01; add i, v0. -/
def romC1 : List Nat := [0xaf, 0xff, 0x60, 0x01, 0xf0, 0x1e]

/-- State executing 8F04 (add vF, v0) with vF = 1 and v0 = 3. -/
def c5state : Chip8 :=
  { v := upd (upd (fun _ => 0) 15 1) 0 3, i := 0, pc := 0x200, sp := 0x1DE,
    atimer := 0, dt := 0,
    memory := upd (upd (fun _ => 0) 0x200 0x8f) 0x201 0x04,
    disp := Disp.new 64 32, inp := Input.new, halted := false }

/-- State executing 8F0E (shl vF, v0) with vF = 0x80. -/
def c8state : Chip8 :=
  { v := upd (fun _ => 0) 15 0x80, i := 0, pc := 0x200, sp := 0x1DE,
    atimer := 0, dt := 0,
    memory := upd (upd (fun _ => 0) 0x200 0x8f) 0x201 0x0e,
    disp := Disp.new 64 32, inp := Input.new, halted := false }

/-- Halted state used to instantiate the no-op theorem. -/
def haltedState : Chip8 :=
  { v := fun _ => 0, i := 0, pc := 0x200, sp := 0x1DE, atimer := 0, dt := 0,
    memory := fun _ => 0, disp := Disp.new 64 32, inp := Input.new,
    halted := true }

/-! ## C7: a halted interpreter never does anything again -/

/-- C7: once halted is set, step returns success and the state — every
register, memory, pc, sp, i, both timers, display and input — unchanged,
so the halted state is never left. -/
theorem halted_step_noop (o : Oracle) (s : Chip8) (h : s.halted = true) :
    step o s = some s := by
  simp [step, h]

/-- Witness for halted_step_noop at a concrete halted state. -/
theorem halted_step_noop_witness :
    haltedState.halted = true ∧ step oracle0 haltedState = some haltedState :=
  ⟨rfl, halted_step_noop oracle0 haltedState rfl⟩

/-! ## C10: key_up leaves the latch, so a press-then-release still
completes wait_for_input -/

/-- Unfolding of the wait loop when the latch is already set. -/
theorem waitLoop_some (batches : List (List InputEvent)) (s : Input) (k : Nat)
    (h : s.last_key = some k) : waitLoop batches s = some (k, s) := by
  cases batches with
  | nil => rw [waitLoop, h]
  | cons b rest => rw [waitLoop, h]

/-- Unfolding of the wait loop on an unset latch and a pending batch. -/
theorem waitLoop_step (b : List InputEvent) (rest : List (List InputEvent))
    (s : Input) (h : s.last_key = none) :
    waitLoop (b :: rest) s =
      match handle_input s b with
      | some s1 => waitLoop rest s1
      | none => none := by
  rw [waitLoop, h]

/-- C10: key_up clears only the pressed slot and leaves the last-pressed
latch (and quit) unchanged; consequently a key pressed and then released
while wait_for_input is polling still completes the wait, which returns
that key (with the key now released). -/
theorem key_up_latch_wait :
    (∀ (s : Input) (k : Nat), k < 16 →
      ∃ s1, key_up s k = some s1 ∧ s1.last_key = s.last_key ∧
        s1.key_status k = false ∧ s1.quit = s.quit ∧
        ∀ j, j ≠ k → s1.key_status j = s.key_status j) ∧
    (∀ (s : Input) (k : Nat) (rest : List (List InputEvent)), k < 16 →
      ∃ s1, wait_for_input ([InputEvent.down k, InputEvent.up k] :: rest) s =
          some (k, s1) ∧ s1.key_status k = false) := by
  constructor
  · intro s k hk
    refine ⟨{ s with key_status := upd s.key_status k false },
      ?_, rfl, upd_same _ _ _, rfl, fun j hj => upd_ne _ _ _ hj⟩
    rw [key_up, if_pos hk]
  · intro s k rest hk
    refine ⟨{ s with
                key_status := upd (upd s.key_status k true) k false,
                last_key := some k }, ?_, upd_same _ _ _⟩
    rw [wait_for_input, waitLoop_step _ _ _ rfl]
    have hhi : handle_input { s with last_key := none }
        [InputEvent.down k, InputEvent.up k] =
        some { s with
                 key_status := upd (upd s.key_status k true) k false,
                 last_key := some k } := by
      simp [handle_input, handleEvent, key_down, key_up, hk]
    rw [hhi]
    exact waitLoop_some rest _ k rfl

/-- Witness for key_up_latch_wait at key 5 on a fresh keypad. -/
theorem key_up_latch_wait_witness :
    (∃ s1, key_up Input.new 5 = some s1 ∧ s1.last_key = Input.new.last_key ∧
      s1.key_status 5 = false ∧ s1.quit = Input.new.quit ∧
      ∀ j, j ≠ 5 → s1.key_status j = Input.new.key_status j) ∧
    (∃ s1, wait_for_input [[InputEvent.down 5, InputEvent.up 5]] Input.new =
        some (5, s1) ∧ s1.key_status 5 = false) :=
  ⟨key_up_latch_wait.1 Input.new 5 (by omega),
   key_up_latch_wait.2 Input.new 5 [] (by omega)⟩

/-! ## C1: the pc/index bound is not an invariant (corrected) -/

/-- Counterexample to C1 as stated: from a freshly loaded ROM the third
step (Fx1E with I = 0xfff and V0 = 1) leaves the index register at 4096,
outside the claimed range `[0, 4096)`. -/
theorem c1_counterexample :
    ((Chip8.new romC1).bind (stepN oracle0 3)).map (fun c => c.i) = some 4096 ∧
    ¬ 4096 < 4096 :=
  ⟨by decide, by omega⟩

/-- C1 amended: Fx1E sets I to exactly I + Vx and Bnnn sets pc to exactly
V0 + nnn, with no range check or masking, so neither preserves the
`[0, 4096)` bound. -/
theorem fx1e_bnnn_exact (o o2 : Oracle) (s r : Chip8) (x : Nat) (hx : x < 16)
    (hh : s.halted = false) (hpc : s.pc + 1 < 4096)
    (hb1 : s.memory s.pc = 0xf0 + x) (hb2 : s.memory (s.pc + 1) = 0x1e)
    (hrh : r.halted = false) (hrpc : r.pc + 1 < 4096)
    (hrb1 : r.memory r.pc < 256) (hrb2 : r.memory (r.pc + 1) < 256)
    (hrhi : r.memory r.pc / 16 = 0xb) :
    (∃ s1, step o s = some s1 ∧ s1.i = s.i + s.v x) ∧
    (∃ r1, step o2 r = some r1 ∧
      r1.pc = r.v 0 + (r.memory r.pc % 16 * 256 + r.memory (r.pc + 1))) := by
  constructor
  · have e3 : bits (s.memory s.pc * 256 + s.memory (s.pc + 1)) 12 16 = 15 := by
      rw [hb1, hb2, bits_12_16] <;> omega
    have e2 : bits (s.memory s.pc * 256 + s.memory (s.pc + 1)) 8 12 = x := by
      rw [hb1, hb2, bits_8_12] <;> omega
    have e1 : bits (s.memory s.pc * 256 + s.memory (s.pc + 1)) 4 8 = 1 := by
      rw [hb1, hb2, bits_4_8] <;> omega
    have e0 : bits (s.memory s.pc * 256 + s.memory (s.pc + 1)) 0 4 = 14 := by
      rw [hb1, hb2, bits_0_4] <;> omega
    have hstep : step o s = some { s with pc := s.pc + 2, i := s.i + s.v x } := by
      simp [step, hh, hpc, e3, e2, e1, e0]
    exact ⟨_, hstep, rfl⟩
  · have e3 : bits (r.memory r.pc * 256 + r.memory (r.pc + 1)) 12 16 = 11 := by
      rw [bits_12_16 _ _ hrb1 hrb2, hrhi]
    have eA : bits (r.memory r.pc * 256 + r.memory (r.pc + 1)) 0 12 =
        r.memory r.pc % 16 * 256 + r.memory (r.pc + 1) :=
      bits_0_12 _ _ hrb1 hrb2
    have hstep : step o2 r = some
        { r with
            pc := r.v 0 + (r.memory r.pc % 16 * 256 + r.memory (r.pc + 1)) } := by
      simp [step, hrh, hrpc, e3, eA]
    exact ⟨_, hstep, rfl⟩

/-! ## C5: 8xy4 add with carry (corrected: x must not be the flag
register itself) -/

/-- Counterexample to C5 as stated: with x = 15, y = 0, VF = 1, V0 = 3,
the claim demands VF = (1+3) mod 256 = 4, but the flag write comes second
and the final VF is 0. -/
theorem add_carry_counterexample :
    (step oracle0 c5state).map (fun c => c.v 15) = some 0 ∧
    (step oracle0 c5state).map (fun c => c.v 15) ≠ some ((1 + 3) % 256) :=
  ⟨by decide, by decide⟩

/-- C5 amended: for every register pair (x, y) with x ≠ 15 and 8-bit
values a, b in Vx and Vy, 8xy4 sets Vx to (a + b) mod 256 and VF to 1
exactly when a + b ≥ 256 (the case x = 15 instead ends with VF holding
only the flag). -/
theorem add_carry_correct (o : Oracle) (s : Chip8) (x y a b : Nat)
    (hx : x < 16) (hy : y < 16) (hxf : x ≠ 15)
    (hh : s.halted = false) (hpc : s.pc + 1 < 4096)
    (hb1 : s.memory s.pc = 0x80 + x) (hb2 : s.memory (s.pc + 1) = y * 16 + 4)
    (ha : s.v x = a) (hb : s.v y = b) :
    ∃ s1, step o s = some s1 ∧ s1.v x = (a + b) % 256 ∧
      s1.v 15 = (if 256 ≤ a + b then 1 else 0) ∧ s1.pc = s.pc + 2 := by
  have e3 : bits (s.memory s.pc * 256 + s.memory (s.pc + 1)) 12 16 = 8 := by
    rw [hb1, hb2, bits_12_16] <;> omega
  have e2 : bits (s.memory s.pc * 256 + s.memory (s.pc + 1)) 8 12 = x := by
    rw [hb1, hb2, bits_8_12] <;> omega
  have e1 : bits (s.memory s.pc * 256 + s.memory (s.pc + 1)) 4 8 = y := by
    rw [hb1, hb2, bits_4_8] <;> omega
  have e0 : bits (s.memory s.pc * 256 + s.memory (s.pc + 1)) 0 4 = 4 := by
    rw [hb1, hb2, bits_0_4] <;> omega
  have hstep : step o s = some
      { s with
          pc := s.pc + 2,
          v := upd (upd s.v x ((s.v x + s.v y) % 256)) 15
                   (if 256 ≤ s.v x + s.v y then 1 else 0) } := by
    simp [step, hh, hpc, e3, e2, e1, e0]
  refine ⟨_, hstep, ?_, ?_, rfl⟩
  · show upd (upd s.v x ((s.v x + s.v y) % 256)) 15
        (if 256 ≤ s.v x + s.v y then 1 else 0) x = (a + b) % 256
    rw [upd_ne _ _ _ hxf, upd_same, ha, hb]
  · show upd (upd s.v x ((s.v x + s.v y) % 256)) 15
        (if 256 ≤ s.v x + s.v y then 1 else 0) 15 = (if 256 ≤ a + b then 1 else 0)
    rw [upd_same, ha, hb]

/-! ## C8: 8xyE raw-bit flag (corrected: x must not be the flag register) -/

/-- Counterexample to C8 as stated: with x = 15 and VF = 0x80 the claimed
result VF = 0x80 fails — the shift is applied to the register the flag
was just written to, leaving VF = 0. -/
theorem shl_counterexample :
    (step oracle0 c8state).map (fun c => c.v 15) = some 0 ∧
    (step oracle0 c8state).map (fun c => c.v 15) ≠ some 0x80 :=
  ⟨by decide, by decide⟩

/-- C8 amended: for x ≠ 15, 8xyE sets VF to the raw masked high bit
Vx &&& 0x80 (0x00 or 0x80, not normalized) and Vx to Vx * 2 mod 256; in
particular Vx = 0x80 yields Vx = 0 and VF = 0x80. -/
theorem shl_raw_flag (o : Oracle) (s : Chip8) (x y a : Nat)
    (hx : x < 16) (hy : y < 16) (hxf : x ≠ 15)
    (hh : s.halted = false) (hpc : s.pc + 1 < 4096)
    (hb1 : s.memory s.pc = 0x80 + x) (hb2 : s.memory (s.pc + 1) = y * 16 + 0xe)
    (ha : s.v x = a) :
    ∃ s1, step o s = some s1 ∧ s1.v 15 = a &&& 0x80 ∧
      s1.v x = a * 2 % 256 ∧ s1.pc = s.pc + 2 := by
  have e3 : bits (s.memory s.pc * 256 + s.memory (s.pc + 1)) 12 16 = 8 := by
    rw [hb1, hb2, bits_12_16] <;> omega
  have e2 : bits (s.memory s.pc * 256 + s.memory (s.pc + 1)) 8 12 = x := by
    rw [hb1, hb2, bits_8_12] <;> omega
  have e1 : bits (s.memory s.pc * 256 + s.memory (s.pc + 1)) 4 8 = y := by
    rw [hb1, hb2, bits_4_8] <;> omega
  have e0 : bits (s.memory s.pc * 256 + s.memory (s.pc + 1)) 0 4 = 14 := by
    rw [hb1, hb2, bits_0_4] <;> omega
  have hstep : step o s = some
      { s with
          pc := s.pc + 2,
          v := upd (upd s.v 15 (s.v x &&& 0x80)) x
                   (upd s.v 15 (s.v x &&& 0x80) x * 2 % 256) } := by
    simp [step, hh, hpc, e3, e2, e1, e0]
  refine ⟨_, hstep, ?_, ?_, rfl⟩
  · show upd (upd s.v 15 (s.v x &&& 0x80)) x
        (upd s.v 15 (s.v x &&& 0x80) x * 2 % 256) 15 = a &&& 0x80
    rw [upd_ne _ _ _ (Ne.symm hxf), upd_same, ha]
  · show upd (upd s.v 15 (s.v x &&& 0x80)) x
        (upd s.v 15 (s.v x &&& 0x80) x * 2 % 256) x = a * 2 % 256
    rw [upd_same, upd_ne _ _ _ hxf, ha]

end Chip8Model

namespace Chip8Model

/-- Characterization of the 2nnn arm of step: push pc + 2 big-endian at
the incremented stack pointer, jump to nnn. -/
theorem step_call (o : Oracle) (s : Chip8)
    (hh : s.halted = false) (hpc : s.pc + 1 < 4096)
    (hb1 : s.memory s.pc < 256) (hb2 : s.memory (s.pc + 1) < 256)
    (hn3 : s.memory s.pc / 16 = 2) (hsp : s.sp + 3 < 4096) :
    step o s = some
      { s with
          sp := s.sp + 2,
          memory := upd (upd s.memory (s.sp + 2) ((s.pc + 2) / 256))
                        (s.sp + 3) ((s.pc + 2) % 256),
          pc := s.memory s.pc % 16 * 256 + s.memory (s.pc + 1) } := by
  have e3 : bits (s.memory s.pc * 256 + s.memory (s.pc + 1)) 12 16 = 2 := by
    rw [bits_12_16 _ _ hb1 hb2, hn3]
  have eA : bits (s.memory s.pc * 256 + s.memory (s.pc + 1)) 0 12 =
      s.memory s.pc % 16 * 256 + s.memory (s.pc + 1) :=
    bits_0_12 _ _ hb1 hb2
  simp [step, hh, hpc, e3, eA, hsp]

/-- Characterization of the 00EE arm of step: pop the big-endian return
address, move the stack pointer back. -/
theorem step_ret (o : Oracle) (s : Chip8)
    (hh : s.halted = false) (hpc : s.pc + 1 < 4096)
    (hb1 : s.memory s.pc = 0) (hb2 : s.memory (s.pc + 1) = 0xee)
    (hsp1 : 2 ≤ s.sp) (hsp2 : s.sp + 1 < 4096) :
    step o s = some
      { s with
          pc := s.memory s.sp * 256 + s.memory (s.sp + 1),
          sp := s.sp - 2 } := by
  have e3 : bits (s.memory s.pc * 256 + s.memory (s.pc + 1)) 12 16 = 0 := by
    rw [hb1, hb2, bits_12_16] <;> omega
  have e2 : bits (s.memory s.pc * 256 + s.memory (s.pc + 1)) 8 12 = 0 := by
    rw [hb1, hb2, bits_8_12] <;> omega
  have e1 : bits (s.memory s.pc * 256 + s.memory (s.pc + 1)) 4 8 = 14 := by
    rw [hb1, hb2, bits_4_8] <;> omega
  have e0 : bits (s.memory s.pc * 256 + s.memory (s.pc + 1)) 0 4 = 14 := by
    rw [hb1, hb2, bits_0_4] <;> omega
  simp [step, hh, hpc, e3, e2, e1, e0, hsp1, hsp2]

/-- State at call nesting depth 16: sp = 0x1FE, executing 2300 (call). -/
def c2state : Chip8 :=
  { v := fun _ => 0, i := 0, pc := 0x200, sp := 0x1FE, atimer := 0, dt := 0,
    memory := upd (upd (fun _ => 0) 0x200 0x23) 0x201 0x00,
    disp := Disp.new 64 32, inp := Input.new, halted := false }

/-- Counterexample to C2 as stated: the stack pointer of a fresh machine
is 0x1E0, not 0x1E0 - 2; consequently at nesting depth 16 the 2nnn push
lands at addresses 0x200 and 0x201 — outside [0x1E0, 0x200), overwriting
the first program bytes (here with the return-address high byte 2). -/
theorem call_stack_counterexample :
    ((Chip8.new []).map (fun c => c.sp) = some 0x1E0 ∧
      (0x1E0 : Nat) ≠ 0x1E0 - 2) ∧
    ((step oracle0 c2state).map (fun c => c.sp) = some 0x200 ∧
      (step oracle0 c2state).map (fun c => c.memory 0x200) = some 2 ∧
      ¬ (0x200 : Nat) < 0x200) :=
  ⟨⟨by decide, by decide⟩, by decide, by decide, by omega⟩

/-- C2 amended: the stack pointer starts at 0x1E0 (STACK_START itself)
and moves in +2 / -2 steps; the two big-endian return-address bytes of a
depth-d 2nnn call land at sp + 2 and sp + 3, which lie inside
[0x1E0, 0x200) only for d up to 15 — at depth 16 they land at 0x200 and
0x201, outside the reserved region. -/
theorem call_stack_region (o o2 : Oracle) (rom : List Nat)
    (hrom : rom.length ≤ 4096 - PROGRAM_START)
    (s r : Chip8) (d : Nat) (hd1 : 1 ≤ d) (hd2 : d ≤ 16)
    (hsp : s.sp = STACK_START + 2 * (d - 1))
    (hh : s.halted = false) (hpc : s.pc + 1 < 4096)
    (hb1 : s.memory s.pc < 256) (hb2 : s.memory (s.pc + 1) < 256)
    (hcall : s.memory s.pc / 16 = 2)
    (hrh : r.halted = false) (hrpc : r.pc + 1 < 4096)
    (hrb1 : r.memory r.pc = 0) (hrb2 : r.memory (r.pc + 1) = 0xee)
    (hrsp : 2 ≤ r.sp) (hrsp2 : r.sp + 1 < 4096) :
    (∃ c, Chip8.new rom = some c ∧ c.sp = 0x1E0) ∧
    (∃ s1, step o s = some s1 ∧ s1.sp = s.sp + 2 ∧
      s1.memory s1.sp = (s.pc + 2) / 256 ∧
      s1.memory (s1.sp + 1) = (s.pc + 2) % 256 ∧
      (∀ a, a ≠ s1.sp → a ≠ s1.sp + 1 → s1.memory a = s.memory a) ∧
      (d ≤ 15 → 0x1E0 ≤ s1.sp ∧ s1.sp + 1 < 0x200) ∧
      (d = 16 → s1.sp = 0x200)) ∧
    (∃ r1, step o2 r = some r1 ∧ r1.sp = r.sp - 2) := by
  have hSS : STACK_START = 480 := by decide
  have hnew : Chip8.new rom = some
      { v := fun _ => 0, i := 0, pc := PROGRAM_START, sp := STACK_START,
        atimer := 0, dt := 0, memory := initMem rom,
        disp := Disp.new 64 32, inp := Input.new, halted := false } := by
    rw [Chip8.new, if_pos hrom]
  refine ⟨⟨_, hnew, hSS⟩, ?_, ?_⟩
  · have hsp3 : s.sp + 3 < 4096 := by omega
    rw [step_call o s hh hpc hb1 hb2 hcall hsp3]
    refine ⟨_, rfl, rfl, ?_, ?_, ?_,
      by show d ≤ 15 → 480 ≤ s.sp + 2 ∧ s.sp + 2 + 1 < 512; omega,
      by show d = 16 → s.sp + 2 = 512; omega⟩
    · show upd (upd s.memory (s.sp + 2) ((s.pc + 2) / 256))
          (s.sp + 3) ((s.pc + 2) % 256) (s.sp + 2) = (s.pc + 2) / 256
      rw [upd_ne _ _ _ (by omega), upd_same]
    · show upd (upd s.memory (s.sp + 2) ((s.pc + 2) / 256))
          (s.sp + 3) ((s.pc + 2) % 256) (s.sp + 2 + 1) = (s.pc + 2) % 256
      have h23 : s.sp + 2 + 1 = s.sp + 3 := by omega
      rw [h23, upd_same]
    · intro a ha1 ha2
      have ha1x : a ≠ s.sp + 2 := ha1
      have ha2x : a ≠ s.sp + 2 + 1 := ha2
      show upd (upd s.memory (s.sp + 2) ((s.pc + 2) / 256))
          (s.sp + 3) ((s.pc + 2) % 256) a = s.memory a
      rw [upd_ne _ _ _ (by omega), upd_ne _ _ _ (by omega)]
  · rw [step_ret o2 r hrh hrpc hrb1 hrb2 hrsp hrsp2]
    exact ⟨_, rfl, rfl⟩

end Chip8Model

namespace Chip8Model

/-- C4: a 2nnn call pushes pc + 2, and any later state at the same stack
depth whose stack slot still holds those two bytes executes 00EE back to
pc + 2 — the instruction immediately after the call — for every nesting
depth 1 through 16 (at depth 16 the slot sits at 0x200/0x201 but the
round trip still works). -/
theorem call_ret_roundtrip (o o2 : Oracle) (s : Chip8) (d : Nat)
    (hd1 : 1 ≤ d) (hd2 : d ≤ 16) (hsp : s.sp = STACK_START + 2 * (d - 1))
    (hh : s.halted = false) (hpc : s.pc + 1 < 4096)
    (hb1 : s.memory s.pc < 256) (hb2 : s.memory (s.pc + 1) < 256)
    (hcall : s.memory s.pc / 16 = 2) :
    ∃ s1, step o s = some s1 ∧
      s1.pc = s.memory s.pc % 16 * 256 + s.memory (s.pc + 1) ∧
      s1.sp = s.sp + 2 ∧
      ∀ r : Chip8, r.halted = false → r.pc + 1 < 4096 →
        r.memory r.pc = 0 → r.memory (r.pc + 1) = 0xee →
        r.sp = s1.sp →
        r.memory s1.sp = s1.memory s1.sp →
        r.memory (s1.sp + 1) = s1.memory (s1.sp + 1) →
        ∃ r1, step o2 r = some r1 ∧ r1.pc = s.pc + 2 ∧ r1.sp = s.sp := by
  have hSS : STACK_START = 480 := by decide
  have hsp3 : s.sp + 3 < 4096 := by omega
  rw [step_call o s hh hpc hb1 hb2 hcall hsp3]
  refine ⟨_, rfl, rfl, rfl, ?_⟩
  intro r hrh hrpc hrb1 hrb2 hrsp hm1 hm2
  have hrspx : r.sp = s.sp + 2 := hrsp
  have hm1x : r.memory (s.sp + 2) =
      upd (upd s.memory (s.sp + 2) ((s.pc + 2) / 256))
          (s.sp + 3) ((s.pc + 2) % 256) (s.sp + 2) := hm1
  have hm2x : r.memory (s.sp + 2 + 1) =
      upd (upd s.memory (s.sp + 2) ((s.pc + 2) / 256))
          (s.sp + 3) ((s.pc + 2) % 256) (s.sp + 2 + 1) := hm2
  rw [upd_ne _ _ _ (by omega), upd_same] at hm1x
  have h23 : s.sp + 2 + 1 = s.sp + 3 := by omega
  rw [h23, upd_same] at hm2x
  have hr1 : 2 ≤ r.sp := by omega
  have hr2 : r.sp + 1 < 4096 := by omega
  rw [step_ret o2 r hrh hrpc hrb1 hrb2 hr1 hr2]
  refine ⟨_, rfl, ?_, ?_⟩
  · show r.memory r.sp * 256 + r.memory (r.sp + 1) = s.pc + 2
    rw [hrspx, hm1x, h23, hm2x]
    omega
  · show r.sp - 2 = s.sp
    omega

end Chip8Model

namespace Chip8Model

/-- Characterization of the Fx55 store loop: it writes v j .. v (j+cnt-1)
to idx .. idx+cnt-1 and advances the index by cnt. -/
theorem storeLoop_eq (v : Nat → Nat) (cnt : Nat) :
    ∀ (j idx : Nat) (mem : Nat → Nat), idx + cnt ≤ 4096 →
    storeLoop v j cnt mem idx =
      some (fun a => if idx ≤ a ∧ a < idx + cnt then v (j + (a - idx)) else mem a,
            idx + cnt) := by
  induction cnt with
  | zero =>
    intro j idx mem h
    have hf : (fun a => if idx ≤ a ∧ a < idx + 0 then v (j + (a - idx)) else mem a)
        = mem := by
      funext a
      have hno : ¬(idx ≤ a ∧ a < idx + 0) := by omega
      rw [if_neg hno]
    rw [storeLoop, hf, Nat.add_zero]
  | succ c ih =>
    intro j idx mem h
    have hidx : idx < 4096 := by omega
    rw [storeLoop, if_pos hidx, ih (j + 1) (idx + 1) (upd mem idx (v j)) (by omega)]
    have hf : (fun a => if idx + 1 ≤ a ∧ a < idx + 1 + c then v (j + 1 + (a - (idx + 1)))
          else upd mem idx (v j) a)
        = (fun a => if idx ≤ a ∧ a < idx + (c + 1) then v (j + (a - idx)) else mem a) := by
      funext a
      by_cases h1 : idx + 1 ≤ a ∧ a < idx + 1 + c
      · have h2 : idx ≤ a ∧ a < idx + (c + 1) := by omega
        rw [if_pos h1, if_pos h2]
        have : j + 1 + (a - (idx + 1)) = j + (a - idx) := by omega
        rw [this]
      · by_cases h3 : a = idx
        · subst h3
          have h2 : a ≤ a ∧ a < a + (c + 1) := by omega
          rw [if_neg h1, if_pos h2, upd_same]
          have : a - a = 0 := by omega
          rw [this, Nat.add_zero]
        · have h2 : ¬(idx ≤ a ∧ a < idx + (c + 1)) := by omega
          rw [if_neg h1, if_neg h2, upd_ne _ _ _ h3]
    rw [hf]
    have : idx + 1 + c = idx + (c + 1) := by omega
    rw [this]

/-- Characterization of the Fx65 load loop: it loads idx .. idx+cnt-1
into v j .. v (j+cnt-1) and advances the index by cnt. -/
theorem loadLoop_eq (mem : Nat → Nat) (cnt : Nat) :
    ∀ (j idx : Nat) (v : Nat → Nat), idx + cnt ≤ 4096 →
    loadLoop mem j cnt v idx =
      some (fun r => if j ≤ r ∧ r < j + cnt then mem (idx + (r - j)) else v r,
            idx + cnt) := by
  induction cnt with
  | zero =>
    intro j idx v h
    have hf : (fun r => if j ≤ r ∧ r < j + 0 then mem (idx + (r - j)) else v r)
        = v := by
      funext r
      have hno : ¬(j ≤ r ∧ r < j + 0) := by omega
      rw [if_neg hno]
    rw [loadLoop, hf, Nat.add_zero]
  | succ c ih =>
    intro j idx v h
    have hidx : idx < 4096 := by omega
    rw [loadLoop, if_pos hidx, ih (j + 1) (idx + 1) (upd v j (mem idx)) (by omega)]
    have hf : (fun r => if j + 1 ≤ r ∧ r < j + 1 + c then mem (idx + 1 + (r - (j + 1)))
          else upd v j (mem idx) r)
        = (fun r => if j ≤ r ∧ r < j + (c + 1) then mem (idx + (r - j)) else v r) := by
      funext r
      by_cases h1 : j + 1 ≤ r ∧ r < j + 1 + c
      · have h2 : j ≤ r ∧ r < j + (c + 1) := by omega
        rw [if_pos h1, if_pos h2]
        have : idx + 1 + (r - (j + 1)) = idx + (r - j) := by omega
        rw [this]
      · by_cases h3 : r = j
        · subst h3
          have h2 : r ≤ r ∧ r < r + (c + 1) := by omega
          rw [if_neg h1, if_pos h2, upd_same]
          have : r - r = 0 := by omega
          rw [this, Nat.add_zero]
        · have h2 : ¬(j ≤ r ∧ r < j + (c + 1)) := by omega
          rw [if_neg h1, if_neg h2, upd_ne _ _ _ h3]
    rw [hf]
    have : idx + 1 + c = idx + (c + 1) := by omega
    rw [this]

end Chip8Model

namespace Chip8Model

/-- Characterization of the Fx55 arm of step. -/
theorem step_fx55 (o : Oracle) (t : Chip8) (x : Nat) (hx : x < 16)
    (hh : t.halted = false) (hpc : t.pc + 1 < 4096)
    (hb1 : t.memory t.pc = 0xf0 + x) (hb2 : t.memory (t.pc + 1) = 0x55)
    (hI : t.i + (x + 1) ≤ 4096) :
    step o t = some
      { t with
          pc := t.pc + 2,
          memory := fun a => if t.i ≤ a ∧ a < t.i + (x + 1)
                             then t.v (0 + (a - t.i)) else t.memory a,
          i := t.i + (x + 1) } := by
  have e3 : bits (t.memory t.pc * 256 + t.memory (t.pc + 1)) 12 16 = 15 := by
    rw [hb1, hb2, bits_12_16] <;> omega
  have e2 : bits (t.memory t.pc * 256 + t.memory (t.pc + 1)) 8 12 = x := by
    rw [hb1, hb2, bits_8_12] <;> omega
  have e1 : bits (t.memory t.pc * 256 + t.memory (t.pc + 1)) 4 8 = 5 := by
    rw [hb1, hb2, bits_4_8] <;> omega
  have e0 : bits (t.memory t.pc * 256 + t.memory (t.pc + 1)) 0 4 = 5 := by
    rw [hb1, hb2, bits_0_4] <;> omega
  have hst := storeLoop_eq t.v (x + 1) 0 t.i t.memory hI
  simp [step, hh, hpc, e3, e2, e1, e0, hst]

/-- Characterization of the Fx65 arm of step. -/
theorem step_fx65 (o : Oracle) (t : Chip8) (x : Nat) (hx : x < 16)
    (hh : t.halted = false) (hpc : t.pc + 1 < 4096)
    (hb1 : t.memory t.pc = 0xf0 + x) (hb2 : t.memory (t.pc + 1) = 0x65)
    (hI : t.i + (x + 1) ≤ 4096) :
    step o t = some
      { t with
          pc := t.pc + 2,
          v := fun r => if 0 ≤ r ∧ r < 0 + (x + 1)
                        then t.memory (t.i + (r - 0)) else t.v r,
          i := t.i + (x + 1) } := by
  have e3 : bits (t.memory t.pc * 256 + t.memory (t.pc + 1)) 12 16 = 15 := by
    rw [hb1, hb2, bits_12_16] <;> omega
  have e2 : bits (t.memory t.pc * 256 + t.memory (t.pc + 1)) 8 12 = x := by
    rw [hb1, hb2, bits_8_12] <;> omega
  have e1 : bits (t.memory t.pc * 256 + t.memory (t.pc + 1)) 4 8 = 6 := by
    rw [hb1, hb2, bits_4_8] <;> omega
  have e0 : bits (t.memory t.pc * 256 + t.memory (t.pc + 1)) 0 4 = 5 := by
    rw [hb1, hb2, bits_0_4] <;> omega
  have hld := loadLoop_eq t.memory (x + 1) 0 t.i t.v hI
  simp [step, hh, hpc, e3, e2, e1, e0, hld]

/-- Fx65 loads back exactly the values w stored at I when the registers
already agree with w outside the loaded range. -/
theorem fx65_restore (o2 : Oracle) (t : Chip8) (x : Nat) (hx : x < 16)
    (hh : t.halted = false) (hpc : t.pc + 1 < 4096)
    (hb1 : t.memory t.pc = 0xf0 + x) (hb2 : t.memory (t.pc + 1) = 0x65)
    (hI : t.i + (x + 1) ≤ 4096) (w : Nat → Nat)
    (hmem : ∀ j, j ≤ x → t.memory (t.i + j) = w j) (hv : ∀ j, t.v j = w j) :
    ∃ s3, step o2 t = some s3 ∧ s3.i = t.i + x + 1 ∧ ∀ j, s3.v j = w j := by
  rw [step_fx65 o2 t x hx hh hpc hb1 hb2 hI]
  refine ⟨_, rfl, by show t.i + (x + 1) = t.i + x + 1; omega, ?_⟩
  intro j
  show (if 0 ≤ j ∧ j < 0 + (x + 1)
        then t.memory (t.i + (j - 0)) else t.v j) = w j
  by_cases hj : 0 ≤ j ∧ j < 0 + (x + 1)
  · rw [if_pos hj]
    have hj0 : j - 0 = j := by omega
    rw [hj0, hmem j (by omega)]
  · rw [if_neg hj, hv]

/-- C3: executing Fx55 and then Fx65 with the same initial I and x (I is
reset between the two operations, as a program would do with Annn)
restores V0..=Vx — indeed every register — to its pre-store value, and
both operations end with I = initial I + x + 1. -/
theorem fx55_fx65_roundtrip (o o2 : Oracle) (s : Chip8) (x : Nat)
    (hx : x < 16) (hI : s.i + x + 1 ≤ 4096)
    (hh : s.halted = false) (hpc : s.pc + 1 < 4096)
    (hb1 : s.memory s.pc = 0xf0 + x) (hb2 : s.memory (s.pc + 1) = 0x55) :
    ∃ s1, step o s = some s1 ∧ s1.i = s.i + x + 1 ∧ s1.v = s.v ∧
      (∀ j, j ≤ x → s1.memory (s.i + j) = s.v j) ∧
      ∀ q, q + 1 < 4096 →
        s1.memory q = 0xf0 + x → s1.memory (q + 1) = 0x65 →
        ∃ s3, step o2 { s1 with i := s.i, pc := q } = some s3 ∧
          s3.i = s.i + x + 1 ∧ ∀ j, s3.v j = s.v j := by
  rw [step_fx55 o s x hx hh hpc hb1 hb2 (by omega)]
  have hmem : ∀ j, j ≤ x →
      (if s.i ≤ s.i + j ∧ s.i + j < s.i + (x + 1)
       then s.v (0 + (s.i + j - s.i)) else s.memory (s.i + j)) = s.v j := by
    intro j hj
    have hin : s.i ≤ s.i + j ∧ s.i + j < s.i + (x + 1) := by omega
    rw [if_pos hin]
    have : 0 + (s.i + j - s.i) = j := by omega
    rw [this]
  refine ⟨_, rfl, by show s.i + (x + 1) = s.i + x + 1; omega, rfl, hmem, ?_⟩
  intro q hq hq1 hq2
  refine fx65_restore o2 _ x hx ?_ ?_ ?_ ?_ ?_ s.v ?_ ?_
  · exact hh
  · exact hq
  · exact hq1
  · exact hq2
  · show s.i + (x + 1) ≤ 4096
    omega
  · exact hmem
  · intro j
    rfl

end Chip8Model

namespace Chip8Model

/-- Counterexample to C9 as stated: the loader of chip8.rs (Chip8::new)
does not truncate — its copy_from_slice panics for any ROM longer than
4096 - 0x200 bytes, so loading is not total on that path. -/
theorem load_counterexample : Chip8.new (List.replicate 0xE01 0) = none := by
  rw [Chip8.new, List.length_replicate]
  norm_num [PROGRAM_START]

/-- C9 amended: the load_at operation of main.rs is total for every ROM:
it fills memory back up to exactly 4096 bytes, copies the ROM from offset
0x200 truncated to the remaining space, zero-pads the tail, and leaves
the first 0x200 bytes unchanged.  The Chip8::new path of chip8.rs instead
performs an unchecked copy and fails on over-long ROMs. -/
theorem load_at_total (mem rom : List Nat) (hmem : mem.length = 0x1000) :
    (load_at mem 0x200 rom).length = 0x1000 ∧
    (∀ j, j < rom.length → j < 0xE00 →
      (load_at mem 0x200 rom).getD (0x200 + j) 0 = rom.getD j 0) ∧
    (∀ j, rom.length ≤ j → j < 0xE00 →
      (load_at mem 0x200 rom).getD (0x200 + j) 0 = 0) ∧
    (∀ a, a < 0x200 → (load_at mem 0x200 rom).getD a 0 = mem.getD a 0) := by
  have hA : (mem.take 0x200).length = 0x200 := by
    simp [List.length_take]
    omega
  refine ⟨?_, ?_, ?_, ?_⟩
  · show (mem.take 0x200 ++
      (rom.take 0xE00 ++ List.replicate (0xE00 - rom.length) 0)).length = 0x1000
    simp [List.length_take]
    omega
  · intro j hj1 hj2
    show (mem.take 0x200 ++
      (rom.take 0xE00 ++ List.replicate (0xE00 - rom.length) 0)).getD (0x200 + j) 0 =
      rom.getD j 0
    rw [List.getD_append_right _ _ _ _ (by omega), hA]
    have hj0 : 0x200 + j - 0x200 = j := by omega
    rw [hj0]
    rw [List.getD_append _ _ _ _ (by simp [List.length_take]; omega)]
    rw [List.getD_eq_getElem _ _ (by simp [List.length_take]; omega),
        List.getD_eq_getElem _ _ hj1]
    simp [List.getElem_take]
  · intro j hj1 hj2
    show (mem.take 0x200 ++
      (rom.take 0xE00 ++ List.replicate (0xE00 - rom.length) 0)).getD (0x200 + j) 0 =
      0
    rw [List.getD_append_right _ _ _ _ (by omega), hA]
    have hj0 : 0x200 + j - 0x200 = j := by omega
    rw [hj0]
    have htk : (rom.take 0xE00).length = min 0xE00 rom.length := by
      simp [List.length_take]
    rw [List.getD_append_right _ _ _ _ (by omega)]
    rw [List.getD_eq_getElem _ _ (by simp [List.length_take, List.length_replicate]; omega)]
    simp [List.getElem_replicate]
  · intro a ha
    show (mem.take 0x200 ++
      (rom.take 0xE00 ++ List.replicate (0xE00 - rom.length) 0)).getD a 0 =
      mem.getD a 0
    rw [List.getD_append _ _ _ _ (by omega)]
    rw [List.getD_eq_getElem _ _ (by omega),
        List.getD_eq_getElem _ _ (by omega)]
    simp [List.getElem_take]

end Chip8Model

namespace Chip8Model

/-- Positions toggled by one sprite row: bit dx of the (already reversed)
row byte is set and the pixel index is pos + dx. -/
def hitRow : Nat → Nat → Nat → Nat → Bool
  | _, _, 0, _ => false
  | byte, pos, cnt + 1, q =>
    (byte % 2 == 1 && q == pos) || hitRow (byte / 2) (pos + 1) cnt q

/-- Whether some set bit of the row lands on a pixel that currently
reads 1. -/
def anyRow (pix : Nat → Nat) : Nat → Nat → Nat → Bool
  | _, _, 0 => false
  | byte, pos, cnt + 1 =>
    (byte % 2 == 1 && pix pos == 1) || anyRow pix (byte / 2) (pos + 1) cnt

/-- Positions toggled by the whole sprite. -/
def hitSprite (w x y : Nat) : List Nat → Nat → Nat → Bool
  | [], _, _ => false
  | b :: rest, dy, q =>
    hitRow (reverseBits8 b) ((y + dy) * w + x) 8 q ||
      hitSprite w x y rest (dy + 1) q

/-- Whether some set bit of the sprite lands on a pixel reading 1. -/
def anySprite (pix : Nat → Nat) (w x y : Nat) : List Nat → Nat → Bool
  | [], _ => false
  | b :: rest, dy =>
    anyRow pix (reverseBits8 b) ((y + dy) * w + x) 8 ||
      anySprite pix w x y rest (dy + 1)

theorem div2_pow (byte dx : Nat) : byte / 2 / 2 ^ dx = byte / 2 ^ (dx + 1) := by
  rw [Nat.div_div_eq_div_mul, Nat.mul_comm 2 (2 ^ dx), ← pow_succ]

theorem hitRow_lt : ∀ (cnt byte pos q : Nat), q < pos →
    hitRow byte pos cnt q = false := by
  intro cnt
  induction cnt with
  | zero => intro byte pos q h; rfl
  | succ c ih =>
    intro byte pos q h
    show ((byte % 2 == 1 && q == pos) || hitRow (byte / 2) (pos + 1) c q) = false
    rw [ih (byte / 2) (pos + 1) q (by omega)]
    have hqp : (q == pos) = false := by
      simp
      omega
    rw [hqp, Bool.and_false, Bool.false_or]

theorem hitRow_iff : ∀ (cnt byte pos q : Nat),
    hitRow byte pos cnt q = true ↔
      ∃ dx, dx < cnt ∧ q = pos + dx ∧ byte / 2 ^ dx % 2 = 1 := by
  intro cnt
  induction cnt with
  | zero =>
    intro byte pos q
    simp [hitRow]
  | succ c ih =>
    intro byte pos q
    show ((byte % 2 == 1 && q == pos) || hitRow (byte / 2) (pos + 1) c q) = true ↔ _
    rw [Bool.or_eq_true, Bool.and_eq_true, beq_iff_eq, beq_iff_eq, ih]
    constructor
    · rintro (⟨h1, h2⟩ | ⟨dx, h1, h2, h3⟩)
      · refine ⟨0, by omega, by omega, ?_⟩
        simpa using h1
      · refine ⟨dx + 1, by omega, by omega, ?_⟩
        rw [← div2_pow]
        exact h3
    · rintro ⟨dx, h1, h2, h3⟩
      match dx with
      | 0 =>
        left
        constructor
        · simpa using h3
        · omega
      | dx + 1 =>
        right
        refine ⟨dx, by omega, by omega, ?_⟩
        rw [div2_pow]
        exact h3

theorem anyRow_iff (pix : Nat → Nat) : ∀ (cnt byte pos : Nat),
    anyRow pix byte pos cnt = true ↔
      ∃ dx, dx < cnt ∧ byte / 2 ^ dx % 2 = 1 ∧ pix (pos + dx) = 1 := by
  intro cnt
  induction cnt with
  | zero =>
    intro byte pos
    simp [anyRow]
  | succ c ih =>
    intro byte pos
    show ((byte % 2 == 1 && pix pos == 1) || anyRow pix (byte / 2) (pos + 1) c) = true ↔ _
    rw [Bool.or_eq_true, Bool.and_eq_true, beq_iff_eq, beq_iff_eq, ih]
    constructor
    · rintro (⟨h1, h2⟩ | ⟨dx, h1, h2, h3⟩)
      · refine ⟨0, by omega, by simpa using h1, by simpa using h2⟩
      · refine ⟨dx + 1, by omega, ?_, ?_⟩
        · rw [← div2_pow]
          exact h2
        · have hix : pos + (dx + 1) = pos + 1 + dx := by omega
          rw [hix]
          exact h3
    · rintro ⟨dx, h1, h2, h3⟩
      match dx with
      | 0 =>
        left
        exact ⟨by simpa using h2, by simpa using h3⟩
      | dx + 1 =>
        right
        refine ⟨dx, by omega, ?_, ?_⟩
        · rw [div2_pow]
          exact h2
        · have hix : pos + 1 + dx = pos + (dx + 1) := by omega
          rw [hix]
          exact h3

theorem anyRow_congr (pix1 pix2 : Nat → Nat) : ∀ (cnt byte pos : Nat),
    (∀ dx, dx < cnt → byte / 2 ^ dx % 2 = 1 → pix1 (pos + dx) = pix2 (pos + dx)) →
    anyRow pix1 byte pos cnt = anyRow pix2 byte pos cnt := by
  intro cnt
  induction cnt with
  | zero => intro byte pos h; rfl
  | succ c ih =>
    intro byte pos h
    show ((byte % 2 == 1 && pix1 pos == 1) || anyRow pix1 (byte / 2) (pos + 1) c) =
      ((byte % 2 == 1 && pix2 pos == 1) || anyRow pix2 (byte / 2) (pos + 1) c)
    rw [ih (byte / 2) (pos + 1) ?side]
    case side =>
      intro dx hdx hbit
      have h1 : pos + 1 + dx = pos + (dx + 1) := by omega
      rw [h1]
      refine h (dx + 1) (by omega) ?_
      rw [← div2_pow]
      exact hbit
    by_cases hb : byte % 2 = 1
    · have h0 : pix1 pos = pix2 pos := by
        have hx := h 0 (by omega) (by simpa using hb)
        simpa using hx
      rw [h0]
    · have hb0 : (byte % 2 == 1) = false := by
        simp
        omega
      rw [hb0, Bool.false_and, Bool.false_and]

end Chip8Model

namespace Chip8Model

/-- Characterization of the inner draw loop: it succeeds when every set
bit addresses a pixel inside the buffer holding 0 or 1, flips exactly the
hit positions, and reports whether some hit pixel was on. -/
theorem drawRow_char (sz : Nat) : ∀ (cnt byte pos : Nat) (pix : Nat → Nat) (tog : Bool),
    (∀ dx, dx < cnt → byte / 2 ^ dx % 2 = 1 → pos + dx < sz ∧ pix (pos + dx) ≤ 1) →
    drawRow sz byte pos cnt pix tog =
      some (fun q => if hitRow byte pos cnt q then 1 - pix q else pix q,
            tog || anyRow pix byte pos cnt) := by
  intro cnt
  induction cnt with
  | zero =>
    intro byte pos pix tog h
    simp [drawRow, hitRow, anyRow]
  | succ c ih =>
    intro byte pos pix tog h
    rw [drawRow]
    by_cases hb : byte % 2 = 1
    · rw [if_pos hb]
      obtain ⟨hsz, hp01⟩ := h 0 (by omega) (by simpa using hb)
      rw [Nat.add_zero] at hsz hp01
      rw [if_pos hsz]
      have H' : ∀ (v : Nat), ∀ dx, dx < c → byte / 2 / 2 ^ dx % 2 = 1 →
          pos + 1 + dx < sz ∧ upd pix pos v (pos + 1 + dx) ≤ 1 := by
        intro v dx hdx hbit
        rw [div2_pow] at hbit
        obtain ⟨ha, hb2⟩ := h (dx + 1) (by omega) hbit
        have hix : pos + (dx + 1) = pos + 1 + dx := by omega
        rw [hix] at ha hb2
        refine ⟨ha, ?_⟩
        rw [upd_ne _ _ _ (by omega)]
        exact hb2
      by_cases hp : pix pos = 0
      · rw [hp]
        show drawRow sz (byte / 2) (pos + 1) c (upd pix pos 1) tog = _
        rw [ih (byte / 2) (pos + 1) (upd pix pos 1) tog (H' 1)]
        have hfun : (fun q => if hitRow (byte / 2) (pos + 1) c q
              then 1 - upd pix pos 1 q else upd pix pos 1 q)
            = (fun q => if hitRow byte pos (c + 1) q then 1 - pix q else pix q) := by
          funext q
          by_cases hq : q = pos
          · subst hq
            have hL : (if hitRow (byte / 2) (q + 1) c q = true
                then 1 - upd pix q 1 q else upd pix q 1 q) = 1 := by
              rw [hitRow_lt c (byte / 2) (q + 1) q (by omega)]
              simp [upd_same]
            have hR0 : hitRow byte q (c + 1) q = true := by
              show ((byte % 2 == 1 && q == q) || _) = true
              simp [hb]
            rw [hL, hR0]
            simp [hp]
          · have hcond : hitRow byte pos (c + 1) q = hitRow (byte / 2) (pos + 1) c q := by
              show ((byte % 2 == 1 && q == pos) || _) = _
              have hqp : (q == pos) = false := by
                simp
                omega
              rw [hqp, Bool.and_false, Bool.false_or]
            rw [hcond, upd_ne _ _ _ hq]
        have htog : (tog || anyRow (upd pix pos 1) (byte / 2) (pos + 1) c)
            = (tog || anyRow pix byte pos (c + 1)) := by
          have hcongr : anyRow (upd pix pos 1) (byte / 2) (pos + 1) c
              = anyRow pix (byte / 2) (pos + 1) c :=
            anyRow_congr _ _ c (byte / 2) (pos + 1)
              (fun dx hdx hbit => upd_ne _ _ _ (by omega))
          rw [hcongr]
          show _ = (tog || ((byte % 2 == 1 && pix pos == 1) || anyRow pix (byte / 2) (pos + 1) c))
          have hpp : (pix pos == 1) = false := by
            simp
            omega
          rw [hpp, Bool.and_false, Bool.false_or]
        rw [hfun, htog]
      · have hp1 : pix pos = 1 := by omega
        rw [hp1]
        show drawRow sz (byte / 2) (pos + 1) c (upd pix pos 0) true = _
        rw [ih (byte / 2) (pos + 1) (upd pix pos 0) true (H' 0)]
        have hfun : (fun q => if hitRow (byte / 2) (pos + 1) c q
              then 1 - upd pix pos 0 q else upd pix pos 0 q)
            = (fun q => if hitRow byte pos (c + 1) q then 1 - pix q else pix q) := by
          funext q
          by_cases hq : q = pos
          · subst hq
            have hL : (if hitRow (byte / 2) (q + 1) c q = true
                then 1 - upd pix q 0 q else upd pix q 0 q) = 0 := by
              rw [hitRow_lt c (byte / 2) (q + 1) q (by omega)]
              simp [upd_same]
            have hR0 : hitRow byte q (c + 1) q = true := by
              show ((byte % 2 == 1 && q == q) || _) = true
              simp [hb]
            rw [hL, hR0]
            simp [hp1]
          · have hcond : hitRow byte pos (c + 1) q = hitRow (byte / 2) (pos + 1) c q := by
              show ((byte % 2 == 1 && q == pos) || _) = _
              have hqp : (q == pos) = false := by
                simp
                omega
              rw [hqp, Bool.and_false, Bool.false_or]
            rw [hcond, upd_ne _ _ _ hq]
        have htog : (true || anyRow (upd pix pos 0) (byte / 2) (pos + 1) c)
            = (tog || anyRow pix byte pos (c + 1)) := by
          show _ = (tog || ((byte % 2 == 1 && pix pos == 1) || anyRow pix (byte / 2) (pos + 1) c))
          have hset : (byte % 2 == 1 && pix pos == 1) = true := by
            simp [hb, hp1]
          rw [hset, Bool.true_or, Bool.true_or, Bool.or_true]
        rw [hfun, htog]
    · rw [if_neg hb]
      have H' : ∀ dx, dx < c → byte / 2 / 2 ^ dx % 2 = 1 →
          pos + 1 + dx < sz ∧ pix (pos + 1 + dx) ≤ 1 := by
        intro dx hdx hbit
        rw [div2_pow] at hbit
        obtain ⟨ha, hb2⟩ := h (dx + 1) (by omega) hbit
        have hix : pos + (dx + 1) = pos + 1 + dx := by omega
        rw [hix] at ha hb2
        exact ⟨ha, hb2⟩
      rw [ih (byte / 2) (pos + 1) pix tog H']
      have hb0 : (byte % 2 == 1) = false := by
        simp
        omega
      have hfun : (fun q => if hitRow (byte / 2) (pos + 1) c q then 1 - pix q else pix q)
          = (fun q => if hitRow byte pos (c + 1) q then 1 - pix q else pix q) := by
        funext q
        have hcond : hitRow byte pos (c + 1) q = hitRow (byte / 2) (pos + 1) c q := by
          show ((byte % 2 == 1 && q == pos) || _) = _
          rw [hb0, Bool.false_and, Bool.false_or]
        rw [hcond]
      have htog : (tog || anyRow pix (byte / 2) (pos + 1) c)
          = (tog || anyRow pix byte pos (c + 1)) := by
        show _ = (tog || ((byte % 2 == 1 && pix pos == 1) || anyRow pix (byte / 2) (pos + 1) c))
        rw [hb0, Bool.false_and, Bool.false_or]
      rw [hfun, htog]

end Chip8Model

namespace Chip8Model

theorem cell_lt {w h r c : Nat} (hr : r < h) (hc : c < w) : r * w + c < w * h := by
  have h1 : r * w + c < (r + 1) * w := by
    rw [Nat.succ_mul]
    omega
  have h2 : (r + 1) * w ≤ h * w := Nat.mul_le_mul_right w hr
  have h3 : h * w = w * h := Nat.mul_comm h w
  omega

/-- A position hit by the row drawn at grid row y + dy has row index
y + dy, provided every set bit stays within the row width. -/
theorem hitRow_div {w b x y dy q : Nat}
    (hb : ∀ dx, dx < 8 → reverseBits8 b / 2 ^ dx % 2 = 1 → x + dx < w)
    (hq : hitRow (reverseBits8 b) ((y + dy) * w + x) 8 q = true) :
    q / w = y + dy := by
  rw [hitRow_iff] at hq
  obtain ⟨dx, hdx, hqe, hbit⟩ := hq
  have hcell : x + dx < w := hb dx hdx hbit
  have hw : 0 < w := by omega
  have hmc : (y + dy) * w = w * (y + dy) := Nat.mul_comm _ _
  have hqe2 : q = x + dx + w * (y + dy) := by omega
  rw [hqe2, Nat.add_mul_div_left _ _ hw, Nat.div_eq_of_lt hcell]
  omega

/-- Every position hit by a sprite suffix starting at grid row y + dy has
row index at least y + dy. -/
theorem hitSprite_div_ge (w x y : Nat) : ∀ (rows : List Nat) (dy q : Nat),
    (∀ j dx, j < rows.length → dx < 8 →
      reverseBits8 (rows.getD j 0) / 2 ^ dx % 2 = 1 → x + dx < w) →
    hitSprite w x y rows dy q = true → y + dy ≤ q / w := by
  intro rows
  induction rows with
  | nil =>
    intro dy q hb hq
    exact absurd hq (by simp [hitSprite])
  | cons b rest ih =>
    intro dy q hb hq
    rw [show hitSprite w x y (b :: rest) dy q =
      (hitRow (reverseBits8 b) ((y + dy) * w + x) 8 q ||
        hitSprite w x y rest (dy + 1) q) from rfl, Bool.or_eq_true] at hq
    cases hq with
    | inl h0 =>
      have hd := hitRow_div (fun dx hdx hbit => hb 0 dx (by simp) hdx hbit) h0
      omega
    | inr h1 =>
      have hd := ih (dy + 1) q
        (fun j dx hj hdx hbit =>
          hb (j + 1) dx (by simp only [List.length_cons]; omega) hdx hbit) h1
      omega

/-- anySprite only reads the pixels addressed by set sprite bits. -/
theorem anySprite_congr (w x y : Nat) : ∀ (rows : List Nat) (dy : Nat)
    (pix1 pix2 : Nat → Nat),
    (∀ j dx, j < rows.length → dx < 8 →
      reverseBits8 (rows.getD j 0) / 2 ^ dx % 2 = 1 →
      pix1 ((y + dy + j) * w + x + dx) = pix2 ((y + dy + j) * w + x + dx)) →
    anySprite pix1 w x y rows dy = anySprite pix2 w x y rows dy := by
  intro rows
  induction rows with
  | nil => intro dy pix1 pix2 h; rfl
  | cons b rest ih =>
    intro dy pix1 pix2 h
    show (anyRow pix1 (reverseBits8 b) ((y + dy) * w + x) 8 ||
        anySprite pix1 w x y rest (dy + 1)) =
      (anyRow pix2 (reverseBits8 b) ((y + dy) * w + x) 8 ||
        anySprite pix2 w x y rest (dy + 1))
    have hrow : anyRow pix1 (reverseBits8 b) ((y + dy) * w + x) 8
        = anyRow pix2 (reverseBits8 b) ((y + dy) * w + x) 8 := by
      refine anyRow_congr pix1 pix2 8 (reverseBits8 b) ((y + dy) * w + x) ?_
      intro dx hdx hbit
      exact h 0 dx (by simp) hdx hbit
    have hrest : anySprite pix1 w x y rest (dy + 1)
        = anySprite pix2 w x y rest (dy + 1) := by
      refine ih (dy + 1) pix1 pix2 ?_
      intro j dx hj hdx hbit
      have hx := h (j + 1) dx (by simp only [List.length_cons]; omega) hdx hbit
      have hix : y + dy + (j + 1) = y + (dy + 1) + j := by omega
      rw [hix] at hx
      exact hx
    rw [hrow, hrest]

end Chip8Model

namespace Chip8Model

/-- Every set sprite bit addresses a hit position. -/
theorem hitSprite_mem (w x y : Nat) : ∀ (rows : List Nat) (dy j dx : Nat),
    j < rows.length → dx < 8 →
    reverseBits8 (rows.getD j 0) / 2 ^ dx % 2 = 1 →
    hitSprite w x y rows dy ((y + dy + j) * w + x + dx) = true := by
  intro rows
  induction rows with
  | nil =>
    intro dy j dx hj
    simp at hj
  | cons b rest ih =>
    intro dy j dx hj hdx hbit
    show (hitRow (reverseBits8 b) ((y + dy) * w + x) 8 ((y + dy + j) * w + x + dx) ||
      hitSprite w x y rest (dy + 1) ((y + dy + j) * w + x + dx)) = true
    rw [Bool.or_eq_true]
    match j with
    | 0 =>
      left
      rw [hitRow_iff]
      exact ⟨dx, hdx, rfl, hbit⟩
    | j + 1 =>
      right
      have hx := ih (dy + 1) j dx (by simp only [List.length_cons] at hj; omega) hdx hbit
      have hix : y + (dy + 1) + j = y + dy + (j + 1) := by omega
      rw [hix] at hx
      exact hx

/-- anySprite is true exactly when some set sprite bit addresses a pixel
reading 1. -/
theorem anySprite_iff (w x y : Nat) (pix : Nat → Nat) : ∀ (rows : List Nat) (dy : Nat),
    anySprite pix w x y rows dy = true ↔
      ∃ j dx, j < rows.length ∧ dx < 8 ∧
        reverseBits8 (rows.getD j 0) / 2 ^ dx % 2 = 1 ∧
        pix ((y + dy + j) * w + x + dx) = 1 := by
  intro rows
  induction rows with
  | nil =>
    intro dy
    simp [anySprite]
  | cons b rest ih =>
    intro dy
    show (anyRow pix (reverseBits8 b) ((y + dy) * w + x) 8 ||
      anySprite pix w x y rest (dy + 1)) = true ↔ _
    rw [Bool.or_eq_true, anyRow_iff, ih]
    constructor
    · rintro (⟨dx, hdx, hbit, hp⟩ | ⟨j, dx, hj, hdx, hbit, hp⟩)
      · exact ⟨0, dx, by simp, hdx, hbit, hp⟩
      · refine ⟨j + 1, dx, by simp only [List.length_cons]; omega, hdx, hbit, ?_⟩
        have hix : y + (dy + 1) + j = y + dy + (j + 1) := by omega
        rw [hix] at hp
        exact hp
    · rintro ⟨j, dx, hj, hdx, hbit, hp⟩
      match j with
      | 0 =>
        left
        exact ⟨dx, hdx, hbit, hp⟩
      | j + 1 =>
        right
        refine ⟨j, dx, by simp only [List.length_cons] at hj; omega, hdx, hbit, ?_⟩
        have hix : y + dy + (j + 1) = y + (dy + 1) + j := by omega
        rw [hix] at hp
        exact hp

/-- Characterization of the outer draw loop under the in-bounds and
binary-pixel hypotheses: it flips exactly the hit positions and reports
whether some hit pixel was on. -/
theorem drawLoop_char (w h x y : Nat) : ∀ (rows : List Nat) (dy : Nat)
    (pix : Nat → Nat) (tog : Bool),
    (∀ q, pix q ≤ 1) →
    (∀ j dx, j < rows.length → dx < 8 →
      reverseBits8 (rows.getD j 0) / 2 ^ dx % 2 = 1 →
      x + dx < w ∧ y + dy + j < h) →
    drawLoop (w * h) w x y rows dy pix tog =
      some (fun q => if hitSprite w x y rows dy q then 1 - pix q else pix q,
            tog || anySprite pix w x y rows dy) := by
  intro rows
  induction rows with
  | nil =>
    intro dy pix tog hpix hb
    simp [drawLoop, hitSprite, anySprite]
  | cons b rest ih =>
    intro dy pix tog hpix hb
    rw [drawLoop]
    rw [drawRow_char (w * h) 8 (reverseBits8 b) ((y + dy) * w + x) pix tog ?hrow]
    case hrow =>
      intro dx hdx hbit
      obtain ⟨hxw, hyh⟩ := hb 0 dx (by simp) hdx hbit
      have hassoc : (y + dy) * w + x + dx = (y + dy) * w + (x + dx) := by omega
      refine ⟨?_, hpix _⟩
      rw [hassoc]
      have hyh0 : y + dy < h := by omega
      exact cell_lt hyh0 hxw
    show drawLoop (w * h) w x y rest (dy + 1) _ _ = _
    rw [ih (dy + 1)
      (fun q => if hitRow (reverseBits8 b) ((y + dy) * w + x) 8 q = true
                then 1 - pix q else pix q)
      (tog || anyRow pix (reverseBits8 b) ((y + dy) * w + x) 8)
      ?hpix1 ?hb1]
    case hpix1 =>
      intro q
      show (if hitRow (reverseBits8 b) ((y + dy) * w + x) 8 q = true
            then 1 - pix q else pix q) ≤ 1
      by_cases hq : hitRow (reverseBits8 b) ((y + dy) * w + x) 8 q = true
      · rw [if_pos hq]
        omega
      · rw [if_neg hq]
        exact hpix q
    case hb1 =>
      intro j dx hj hdx hbit
      obtain ⟨hxw, hyh⟩ := hb (j + 1) dx (by simp only [List.length_cons]; omega) hdx hbit
      refine ⟨hxw, by omega⟩
    have hwidth : ∀ j dx, j < (b :: rest).length → dx < 8 →
        reverseBits8 ((b :: rest).getD j 0) / 2 ^ dx % 2 = 1 → x + dx < w := by
      intro j dx hj hdx hbit
      exact (hb j dx hj hdx hbit).1
    have hfun : (fun q => if hitSprite w x y rest (dy + 1) q = true
          then 1 - (if hitRow (reverseBits8 b) ((y + dy) * w + x) 8 q = true
                    then 1 - pix q else pix q)
          else (if hitRow (reverseBits8 b) ((y + dy) * w + x) 8 q = true
                then 1 - pix q else pix q))
        = (fun q => if hitSprite w x y (b :: rest) dy q = true
                    then 1 - pix q else pix q) := by
      funext q
      have hsplit : hitSprite w x y (b :: rest) dy q =
          (hitRow (reverseBits8 b) ((y + dy) * w + x) 8 q ||
            hitSprite w x y rest (dy + 1) q) := rfl
      by_cases h0 : hitRow (reverseBits8 b) ((y + dy) * w + x) 8 q = true
      · have hnot : hitSprite w x y rest (dy + 1) q = false := by
          by_contra hcon
          have htrue : hitSprite w x y rest (dy + 1) q = true := by
            cases hval : hitSprite w x y rest (dy + 1) q
            · exact absurd hval hcon
            · rfl
          have hged := hitSprite_div_ge w x y rest (dy + 1) q
            (fun j dx hj hdx hbit =>
              hwidth (j + 1) dx (by simp only [List.length_cons]; omega) hdx hbit) htrue
          have heqd := hitRow_div
            (fun dx hdx hbit => hwidth 0 dx (by simp) hdx hbit) h0
          omega
        rw [hnot]
        have hcond : hitSprite w x y (b :: rest) dy q = true := by
          rw [hsplit, h0]
          rfl
        rw [hcond]
        simp only [if_pos, if_neg, Bool.false_eq_true, if_false, if_true]
        rw [if_pos h0]
      · have hcond : hitSprite w x y (b :: rest) dy q =
            hitSprite w x y rest (dy + 1) q := by
          rw [hsplit]
          cases hval : hitRow (reverseBits8 b) ((y + dy) * w + x) 8 q
          · rfl
          · exact absurd hval h0
        rw [hcond, if_neg h0]
    have htog : ((tog || anyRow pix (reverseBits8 b) ((y + dy) * w + x) 8) ||
          anySprite (fun q => if hitRow (reverseBits8 b) ((y + dy) * w + x) 8 q = true
                              then 1 - pix q else pix q) w x y rest (dy + 1))
        = (tog || anySprite pix w x y (b :: rest) dy) := by
      have hcongr : anySprite (fun q => if hitRow (reverseBits8 b) ((y + dy) * w + x) 8 q = true
              then 1 - pix q else pix q) w x y rest (dy + 1)
          = anySprite pix w x y rest (dy + 1) := by
        refine anySprite_congr w x y rest (dy + 1) _ pix ?_
        intro j dx hj hdx hbit
        have hrow0 : hitRow (reverseBits8 b) ((y + dy) * w + x) 8
            ((y + (dy + 1) + j) * w + x + dx) = false := by
          by_contra hcon
          have htrue : hitRow (reverseBits8 b) ((y + dy) * w + x) 8
              ((y + (dy + 1) + j) * w + x + dx) = true := by
            cases hval : hitRow (reverseBits8 b) ((y + dy) * w + x) 8
                ((y + (dy + 1) + j) * w + x + dx)
            · exact absurd hval hcon
            · rfl
          have heqd := hitRow_div
            (fun dx2 hdx2 hbit2 => hwidth 0 dx2 (by simp) hdx2 hbit2) htrue
          have hxw : x + dx < w :=
            hwidth (j + 1) dx (by simp only [List.length_cons]; omega) hdx hbit
          have hw : 0 < w := by omega
          have hmc : (y + (dy + 1) + j) * w = w * (y + (dy + 1) + j) := Nat.mul_comm _ _
          have hqe2 : (y + (dy + 1) + j) * w + x + dx = x + dx + w * (y + (dy + 1) + j) := by
            omega
          rw [hqe2, Nat.add_mul_div_left _ _ hw, Nat.div_eq_of_lt hxw] at heqd
          omega
        rw [hrow0]
        simp only [Bool.false_eq_true, if_false]
      rw [hcongr]
      show _ = (tog || (anyRow pix (reverseBits8 b) ((y + dy) * w + x) 8 ||
        anySprite pix w x y rest (dy + 1)))
      rw [Bool.or_assoc]
    rw [hfun, htog]

end Chip8Model

namespace Chip8Model

/-- Unfolding helper: draw_sprite in terms of its drawLoop result. -/
theorem draw_sprite_eq (d : Disp) (sprite : List Nat) (x y : Nat)
    (res : (Nat → Nat) × Bool)
    (h : drawLoop (d.w * d.h) d.w x y sprite 0 d.pixels false = some res) :
    draw_sprite d sprite x y =
      some ({ d with pixels := res.1, dirty := true }, res.2) := by
  rw [draw_sprite, h]

/-- Counterexample to C6 as stated: an all-zero one-byte sprite (a valid
1..15-byte sprite whose addressed pixels all lie on the grid, vacuously)
drawn twice on a cleared 64 x 32 display returns toggled_off = false on
the second draw, not true. -/
theorem draw_twice_counterexample :
    (((draw_sprite (Disp.new 64 32) [0] 0 0).bind
        (fun p => draw_sprite p.1 [0] 0 0)).map Prod.snd) = some false := by
  decide

/-- C6 amended: drawing the same sprite twice at the same in-bounds
position always restores the framebuffer, and the second draw returns
toggled_off = true exactly when some set sprite bit addressed a pixel
that was off before the first draw (so the claim as stated holds for a
sprite with a set bit over an off pixel, but not for an all-zero sprite
or a sprite drawn entirely over lit pixels). -/
theorem draw_twice_restores (d : Disp) (sprite : List Nat) (x y : Nat)
    (hw : d.w = 64) (hht : d.h = 32)
    (hlen1 : 1 ≤ sprite.length) (hlen2 : sprite.length ≤ 15)
    (hpix : ∀ q, d.pixels q ≤ 1)
    (hb : ∀ j dx, j < sprite.length → dx < 8 →
      reverseBits8 (sprite.getD j 0) / 2 ^ dx % 2 = 1 →
      x + dx < 64 ∧ y + j < 32) :
    ∃ d1 t1 d2 t2,
      draw_sprite d sprite x y = some (d1, t1) ∧
      draw_sprite d1 sprite x y = some (d2, t2) ∧
      (∀ q, d2.pixels q = d.pixels q) ∧
      (t2 = true ↔ ∃ j dx, j < sprite.length ∧ dx < 8 ∧
        reverseBits8 (sprite.getD j 0) / 2 ^ dx % 2 = 1 ∧
        d.pixels ((y + j) * 64 + x + dx) = 0) := by
  have hb0 : ∀ j dx, j < sprite.length → dx < 8 →
      reverseBits8 (sprite.getD j 0) / 2 ^ dx % 2 = 1 →
      x + dx < 64 ∧ y + 0 + j < 32 := hb
  have h1 := drawLoop_char 64 32 x y sprite 0 d.pixels false hpix hb0
  have hpix1 : ∀ q, (fun q => if hitSprite 64 x y sprite 0 q = true
      then 1 - d.pixels q else d.pixels q) q ≤ 1 := by
    intro q
    show (if hitSprite 64 x y sprite 0 q = true
          then 1 - d.pixels q else d.pixels q) ≤ 1
    by_cases hq : hitSprite 64 x y sprite 0 q = true
    · rw [if_pos hq]
      omega
    · rw [if_neg hq]
      exact hpix q
  have h2 := drawLoop_char 64 32 x y sprite 0
    (fun q => if hitSprite 64 x y sprite 0 q = true
      then 1 - d.pixels q else d.pixels q) false hpix1 hb0
  have hd1eq : draw_sprite d sprite x y =
      some ({ d with
                pixels := fun q => if hitSprite 64 x y sprite 0 q = true
                  then 1 - d.pixels q else d.pixels q,
                dirty := true },
            false || anySprite d.pixels 64 x y sprite 0) := by
    refine draw_sprite_eq d sprite x y
      (⟨fun q => if hitSprite 64 x y sprite 0 q = true
          then 1 - d.pixels q else d.pixels q,
        false || anySprite d.pixels 64 x y sprite 0⟩) ?_
    rw [hw, hht]
    exact h1
  have hd2eq : draw_sprite
      { d with
          pixels := fun q => if hitSprite 64 x y sprite 0 q = true
            then 1 - d.pixels q else d.pixels q,
          dirty := true } sprite x y =
      some ({ d with
                pixels := fun q => if hitSprite 64 x y sprite 0 q = true
                  then 1 - (if hitSprite 64 x y sprite 0 q = true
                            then 1 - d.pixels q else d.pixels q)
                  else (if hitSprite 64 x y sprite 0 q = true
                        then 1 - d.pixels q else d.pixels q),
                dirty := true },
            false || anySprite (fun q => if hitSprite 64 x y sprite 0 q = true
              then 1 - d.pixels q else d.pixels q) 64 x y sprite 0) := by
    refine draw_sprite_eq _ sprite x y
      (⟨fun q => if hitSprite 64 x y sprite 0 q = true
          then 1 - (if hitSprite 64 x y sprite 0 q = true
                    then 1 - d.pixels q else d.pixels q)
          else (if hitSprite 64 x y sprite 0 q = true
                then 1 - d.pixels q else d.pixels q),
        false || anySprite (fun q => if hitSprite 64 x y sprite 0 q = true
          then 1 - d.pixels q else d.pixels q) 64 x y sprite 0⟩) ?_
    show drawLoop (d.w * d.h) d.w x y sprite 0 _ false = _
    rw [hw, hht]
    exact h2
  refine ⟨_, _, _, _, hd1eq, hd2eq, ?_, ?_⟩
  · intro q
    show (if hitSprite 64 x y sprite 0 q = true
          then 1 - (if hitSprite 64 x y sprite 0 q = true
                    then 1 - d.pixels q else d.pixels q)
          else (if hitSprite 64 x y sprite 0 q = true
                then 1 - d.pixels q else d.pixels q)) = d.pixels q
    by_cases hq : hitSprite 64 x y sprite 0 q = true
    · rw [if_pos hq, if_pos hq]
      have := hpix q
      omega
    · rw [if_neg hq, if_neg hq]
  · show (false || anySprite (fun q => if hitSprite 64 x y sprite 0 q = true
        then 1 - d.pixels q else d.pixels q) 64 x y sprite 0) = true ↔ _
    rw [Bool.false_or, anySprite_iff]
    constructor
    · rintro ⟨j, dx, hj, hdx, hbit, hp⟩
      refine ⟨j, dx, hj, hdx, hbit, ?_⟩
      have hhit : hitSprite 64 x y sprite 0 ((y + 0 + j) * 64 + x + dx) = true :=
        hitSprite_mem 64 x y sprite 0 j dx hj hdx hbit
      have hp2 : (if hitSprite 64 x y sprite 0 ((y + 0 + j) * 64 + x + dx) = true
          then 1 - d.pixels ((y + 0 + j) * 64 + x + dx)
          else d.pixels ((y + 0 + j) * 64 + x + dx)) = 1 := hp
      rw [if_pos hhit] at hp2
      have hle := hpix ((y + 0 + j) * 64 + x + dx)
      have hzero : d.pixels ((y + 0 + j) * 64 + x + dx) = 0 := by omega
      exact hzero
    · rintro ⟨j, dx, hj, hdx, hbit, hp⟩
      refine ⟨j, dx, hj, hdx, hbit, ?_⟩
      have hhit : hitSprite 64 x y sprite 0 ((y + 0 + j) * 64 + x + dx) = true :=
        hitSprite_mem 64 x y sprite 0 j dx hj hdx hbit
      show (if hitSprite 64 x y sprite 0 ((y + 0 + j) * 64 + x + dx) = true
          then 1 - d.pixels ((y + 0 + j) * 64 + x + dx)
          else d.pixels ((y + 0 + j) * 64 + x + dx)) = 1
      rw [if_pos hhit]
      have hzero : d.pixels ((y + 0 + j) * 64 + x + dx) = 0 := hp
      omega

end Chip8Model

namespace Chip8Model

/-! ## Witness states and witness theorems -/

/-- State executing F01E (add i, v0) with I = 100 and v0 = 5. -/
def fx1eState : Chip8 :=
  { v := upd (fun _ => 0) 0 5, i := 100, pc := 0x200, sp := 0x1E0,
    atimer := 0, dt := 0,
    memory := upd (upd (fun _ => 0) 0x200 0xf0) 0x201 0x1e,
    disp := Disp.new 64 32, inp := Input.new, halted := false }

/-- State executing B300 (jp v0, 300) with v0 = 7. -/
def bnnnState : Chip8 :=
  { v := upd (fun _ => 0) 0 7, i := 0, pc := 0x200, sp := 0x1E0,
    atimer := 0, dt := 0,
    memory := upd (upd (fun _ => 0) 0x200 0xb3) 0x201 0x00,
    disp := Disp.new 64 32, inp := Input.new, halted := false }

/-- Witness for fx1e_bnnn_exact. -/
theorem fx1e_bnnn_exact_witness :
    (∃ s1, step oracle0 fx1eState = some s1 ∧ s1.i = fx1eState.i + fx1eState.v 0) ∧
    (∃ r1, step oracle0 bnnnState = some r1 ∧
      r1.pc = bnnnState.v 0 + (bnnnState.memory bnnnState.pc % 16 * 256 +
        bnnnState.memory (bnnnState.pc + 1))) :=
  fx1e_bnnn_exact oracle0 oracle0 fx1eState bnnnState 0 (by decide) rfl (by decide)
    (by decide) (by decide) rfl (by decide) (by decide) (by decide) (by decide)

/-- State executing 00EE (ret) at stack depth 1 after a call. -/
def retState : Chip8 :=
  { v := fun _ => 0, i := 0, pc := 0x300, sp := 0x1E2, atimer := 0, dt := 0,
    memory := upd (upd (fun _ => 0) 0x300 0x00) 0x301 0xee,
    disp := Disp.new 64 32, inp := Input.new, halted := false }

/-- Witness for call_stack_region at nesting depth 16. -/
theorem call_stack_region_witness :
    (∃ c, Chip8.new [] = some c ∧ c.sp = 0x1E0) ∧
    (∃ s1, step oracle0 c2state = some s1 ∧ s1.sp = c2state.sp + 2 ∧
      s1.memory s1.sp = (c2state.pc + 2) / 256 ∧
      s1.memory (s1.sp + 1) = (c2state.pc + 2) % 256 ∧
      (∀ a, a ≠ s1.sp → a ≠ s1.sp + 1 → s1.memory a = c2state.memory a) ∧
      ((16 : Nat) ≤ 15 → 0x1E0 ≤ s1.sp ∧ s1.sp + 1 < 0x200) ∧
      ((16 : Nat) = 16 → s1.sp = 0x200)) ∧
    (∃ r1, step oracle0 retState = some r1 ∧ r1.sp = retState.sp - 2) :=
  call_stack_region oracle0 oracle0 [] (by decide) c2state retState 16 (by decide)
    (by decide) (by decide) rfl (by decide) (by decide) (by decide) (by decide)
    rfl (by decide) (by decide) (by decide) (by decide) (by decide)

/-- Witness for call_ret_roundtrip at nesting depth 16. -/
theorem call_ret_roundtrip_witness :
    ∃ s1, step oracle0 c2state = some s1 ∧
      s1.pc = c2state.memory c2state.pc % 16 * 256 + c2state.memory (c2state.pc + 1) ∧
      s1.sp = c2state.sp + 2 ∧
      ∀ r : Chip8, r.halted = false → r.pc + 1 < 4096 →
        r.memory r.pc = 0 → r.memory (r.pc + 1) = 0xee →
        r.sp = s1.sp →
        r.memory s1.sp = s1.memory s1.sp →
        r.memory (s1.sp + 1) = s1.memory (s1.sp + 1) →
        ∃ r1, step oracle0 r = some r1 ∧ r1.pc = c2state.pc + 2 ∧ r1.sp = c2state.sp :=
  call_ret_roundtrip oracle0 oracle0 c2state 16 (by decide) (by decide) (by decide)
    rfl (by decide) (by decide) (by decide) (by decide)

/-- State executing F055 (ld [i], v0) with I = 0x300 and v0 = 42. -/
def fx55State : Chip8 :=
  { v := upd (fun _ => 0) 0 42, i := 0x300, pc := 0x200, sp := 0x1E0,
    atimer := 0, dt := 0,
    memory := upd (upd (fun _ => 0) 0x200 0xf0) 0x201 0x55,
    disp := Disp.new 64 32, inp := Input.new, halted := false }

/-- Witness for fx55_fx65_roundtrip with x = 0. -/
theorem fx55_fx65_roundtrip_witness :
    ∃ s1, step oracle0 fx55State = some s1 ∧ s1.i = fx55State.i + 0 + 1 ∧
      s1.v = fx55State.v ∧
      (∀ j, j ≤ 0 → s1.memory (fx55State.i + j) = fx55State.v j) ∧
      ∀ q, q + 1 < 4096 →
        s1.memory q = 0xf0 + 0 → s1.memory (q + 1) = 0x65 →
        ∃ s3, step oracle0 { s1 with i := fx55State.i, pc := q } = some s3 ∧
          s3.i = fx55State.i + 0 + 1 ∧ ∀ j, s3.v j = fx55State.v j :=
  fx55_fx65_roundtrip oracle0 oracle0 fx55State 0 (by decide) (by decide) rfl
    (by decide) (by decide) (by decide)

/-- State executing 8124 (add v1, v2) with v1 = 200 and v2 = 100. -/
def addState : Chip8 :=
  { v := upd (upd (fun _ => 0) 1 200) 2 100, i := 0, pc := 0x200, sp := 0x1E0,
    atimer := 0, dt := 0,
    memory := upd (upd (fun _ => 0) 0x200 0x81) 0x201 0x24,
    disp := Disp.new 64 32, inp := Input.new, halted := false }

/-- Witness for add_carry_correct: 200 + 100 = 300 wraps to 44, carry 1. -/
theorem add_carry_correct_witness :
    ∃ s1, step oracle0 addState = some s1 ∧ s1.v 1 = (200 + 100) % 256 ∧
      s1.v 15 = (if 256 ≤ 200 + 100 then 1 else 0) ∧ s1.pc = addState.pc + 2 :=
  add_carry_correct oracle0 addState 1 2 200 100 (by decide) (by decide) (by decide)
    rfl (by decide) (by decide) (by decide) (by decide) (by decide)

/-- State executing 810E (shl v1, v0) with v1 = 0x80. -/
def shlState : Chip8 :=
  { v := upd (fun _ => 0) 1 0x80, i := 0, pc := 0x200, sp := 0x1E0,
    atimer := 0, dt := 0,
    memory := upd (upd (fun _ => 0) 0x200 0x81) 0x201 0x0e,
    disp := Disp.new 64 32, inp := Input.new, halted := false }

/-- Witness for shl_raw_flag at the value 0x80 named by the claim: the
result is Vx = 0 and VF = 0x80 (the raw masked bit). -/
theorem shl_raw_flag_witness :
    ∃ s1, step oracle0 shlState = some s1 ∧ s1.v 15 = 0x80 &&& 0x80 ∧
      s1.v 1 = 0x80 * 2 % 256 ∧ s1.pc = shlState.pc + 2 :=
  shl_raw_flag oracle0 shlState 1 0 0x80 (by decide) (by decide) (by decide)
    rfl (by decide) (by decide) (by decide) (by decide)

/-- Witness for draw_twice_restores: the one-byte sprite 0x80 at the
origin of a cleared display. -/
theorem draw_twice_restores_witness :
    ∃ d1 t1 d2 t2,
      draw_sprite (Disp.new 64 32) [0x80] 0 0 = some (d1, t1) ∧
      draw_sprite d1 [0x80] 0 0 = some (d2, t2) ∧
      (∀ q, d2.pixels q = (Disp.new 64 32).pixels q) ∧
      (t2 = true ↔ ∃ j dx, j < ([0x80] : List Nat).length ∧ dx < 8 ∧
        reverseBits8 (([0x80] : List Nat).getD j 0) / 2 ^ dx % 2 = 1 ∧
        (Disp.new 64 32).pixels ((0 + j) * 64 + 0 + dx) = 0) :=
  draw_twice_restores (Disp.new 64 32) [0x80] 0 0 rfl rfl (by decide) (by decide)
    (fun _ => Nat.zero_le 1)
    (fun j dx hj hdx hbit => by
      simp only [List.length_cons, List.length_nil] at hj
      exact ⟨by omega, by omega⟩)

/-- Witness for load_at_total on a 3-byte ROM. -/
theorem load_at_total_witness :
    (load_at (List.replicate 0x1000 0) 0x200 [1, 2, 3]).length = 0x1000 ∧
    (∀ j, j < ([1, 2, 3] : List Nat).length → j < 0xE00 →
      (load_at (List.replicate 0x1000 0) 0x200 [1, 2, 3]).getD (0x200 + j) 0 =
        ([1, 2, 3] : List Nat).getD j 0) ∧
    (∀ j, ([1, 2, 3] : List Nat).length ≤ j → j < 0xE00 →
      (load_at (List.replicate 0x1000 0) 0x200 [1, 2, 3]).getD (0x200 + j) 0 = 0) ∧
    (∀ a, a < 0x200 →
      (load_at (List.replicate 0x1000 0) 0x200 [1, 2, 3]).getD a 0 =
        (List.replicate 0x1000 (0 : Nat)).getD a 0) :=
  load_at_total (List.replicate 0x1000 0) [1, 2, 3] (by rw [List.length_replicate])

end Chip8Model
